import Mathlib

/-!
# CliffCoder: the countdown / deletion core of `main.go`

A shallow embedding of `loadConfig`, `deleteFilesInDir`, `startCountdown` (with its
watcher goroutine) and `getRemainingTime`, together with the parts of the Go standard
library they call (`time.Duration` arithmetic, `Duration.Seconds`, float64 rounding,
`filepath.Walk`, `os.Remove`).

Modelling conventions

* `int` is 64 bits wide (as on amd64 and arm64); `int`, `int64` and `time.Duration` are
  integers, wrapped into the 64-bit two's complement range where the program multiplies
  them and saturated where the `time` package saturates.
* A `time.Time` is the reading of one clock in nanoseconds (an `Int`): `Add`, `After`
  and `Sub` are the monotonic-clock paths of the `time` package; the wall clock is
  taken to advance in step with it.
* A `float64` is a pair mantissa/exponent; every arithmetic result is the exact result
  rounded to the nearest value of 53 significant bits, ties to even (IEEE 754 binary64 in
  its normal range, which holds every value `Duration.Seconds` can produce; no infinities,
  no NaN).
* The file system is a forest of named nodes; each node carries the outcome the
  operating system would give for `lstat`, for listing and for `os.Remove` on it. A path
  is the list of its components and resolves by name from the top of the forest.
* The loaded `config.ini` is the text `Section(s).Key(k).String()` yields for each key
  that is present; `strconv.ParseInt` is a parameter with three outcomes (number, syntax
  error, range error) and the value it returns with each.
* All accesses to the shared variables happen under `mutex`, so `startCountdown`,
  one iteration of the watcher loop and `getRemainingTime` are atomic transitions; the
  goroutines are the list of live watchers, each with the `config` it captured.
-/

namespace CliffCoder

/-! ## Machine integers and `time` -/

/-- Two's-complement wrap of an integer into the `int64` range. -/
def wrapInt64 (x : Int) : Int := (x + 2 ^ 63) % 2 ^ 64 - 2 ^ 63

/-- The largest `time.Duration`, `1<<63 - 1` nanoseconds. -/
def maxDuration : Int := 2 ^ 63 - 1

/-- The smallest `time.Duration`, `-1 << 63` nanoseconds. -/
def minDuration : Int := -2 ^ 63

/-- The constant `time.Second`, in nanoseconds. -/
def Second : Int := 1000000000

/-! A `time.Duration` is an `Int`, a count of nanoseconds in the signed 64-bit range; a
`time.Time` is an `Int`, the clock reading in nanoseconds. -/

/-- The expression `time.Duration(n) * time.Second`: an `int64` multiplication. -/
def Duration.ofSeconds (n : Int) : Int := wrapInt64 (wrapInt64 n * Second)

/-- The method `t.Add(d)`. -/
def Time.Add (t : Int) (d : Int) : Int := t + d

/-- The method `t.After(u)`. -/
def Time.After (t u : Int) : Bool := decide (u < t)

/-- The method `t.Sub(u)`: the difference, saturated to the `Duration` range. -/
def Time.Sub (t u : Int) : Int :=
  if maxDuration < t - u then maxDuration
  else if t - u < minDuration then minDuration
  else t - u

/-! ## float64 -/

/-- A finite binary floating-point number `mant * 2 ^ exp`. -/
structure Float64 where
  mant : Int
  exp : Int
deriving DecidableEq, Repr

/-- Binary logarithm by repeated halving; the first argument bounds the number of halvings. -/
def log2Aux : Nat → Nat → Nat
  | 0, _ => 0
  | fuel + 1, n => if n < 2 then 0 else log2Aux fuel (n / 2) + 1

/-- The position of the highest set bit of `n`, that is `⌊log₂ n⌋` for `n > 0`. -/
def ilog2 (n : Nat) : Nat := log2Aux n n

/-- The integer nearest to `N / D`, a tie going to the even neighbour. -/
def roundHalfEven (N D : Nat) : Nat :=
  let q := N / D
  let r := N % D
  if 2 * r < D then q
  else if D < 2 * r then q + 1
  else if q % 2 = 0 then q else q + 1

/-- Round the positive rational `n / d` to 53 significant bits: with `2 ^ e ≤ n / d < 2 ^ (e + 1)`
the result is `m * 2 ^ (e - 52)` where `m` is `n / d / 2 ^ (e - 52)` rounded to an integer. -/
def roundPos (n d : Nat) : Float64 :=
  let a := ilog2 n
  let b := ilog2 d
  let e : Int := if d * 2 ^ a ≤ n * 2 ^ b then (a : Int) - b else (a : Int) - b - 1
  let s : Int := e - 52
  ⟨roundHalfEven (n * 2 ^ (-s).toNat) (d * 2 ^ s.toNat), s⟩

/-- Round the rational `num / den` to the nearest float64, ties to even. -/
def round64 (num : Int) (den : Nat) : Float64 :=
  if num = 0 then ⟨0, 0⟩
  else if 0 < num then roundPos num.toNat den
  else ⟨-(roundPos (-num).toNat den).mant, (roundPos (-num).toNat den).exp⟩

/-- The conversion `float64(x)` of an integer. -/
def Float64.ofInt (x : Int) : Float64 := round64 x 1

/-- The float64 sum `x + y`: the exact sum, rounded. -/
def Float64.add (x y : Float64) : Float64 :=
  let t := min x.exp y.exp
  let m := x.mant * 2 ^ (x.exp - t).toNat + y.mant * 2 ^ (y.exp - t).toNat
  round64 (m * 2 ^ t.toNat) (2 ^ (-t).toNat)

/-- The float64 quotient `x / y` for `y ≠ 0`: the exact quotient, rounded. -/
def Float64.div (x y : Float64) : Float64 :=
  let g := x.exp - y.exp
  round64 (x.mant * Int.sign y.mant * 2 ^ g.toNat) (y.mant.natAbs * 2 ^ (-g).toNat)

/-- The conversion `int(f)`: truncation toward zero. -/
def Float64.toInt (x : Float64) : Int :=
  Int.tdiv (x.mant * 2 ^ x.exp.toNat) (2 ^ (-x.exp).toNat)

/-- The method `d.Seconds()`:
`sec := d / Second; nsec := d % Second; return float64(sec) + float64(nsec)/1e9`. -/
def Duration.Seconds (d : Int) : Float64 :=
  let sec := Int.tdiv d Second
  let nsec := Int.tmod d Second
  Float64.add (Float64.ofInt sec) (Float64.div (Float64.ofInt nsec) (Float64.ofInt 1000000000))

/-! ## The file system and `filepath.Walk` -/

/-- A path, as the list of its components; the empty list is the empty string. -/
abbrev Path := List String

/-- A file-system node. `statErr`: `lstat` on it fails; `readErr`: its entries cannot be
listed; `removeErr`: `os.Remove` on it fails. A `file` is any entry that is not a directory. -/
inductive Node where
  | file (statErr removeErr : Bool)
  | dir (statErr readErr : Bool) (entries : List (String × Node))
deriving Repr

/-- The entries of a directory, in the lexical order in which `Walk` visits them. -/
abbrev Entries := List (String × Node)

/-- What the program prints. -/
inductive Output where
  | countdownStarted (endTime : Int)
  | deleting (dirPath : Path)
  | removing (path : Path)
  | errorCleaning
  | cleaned
deriving DecidableEq, Repr

/-- The outcome of a walk: the file system left behind, the lines printed, and whether
the walk returned a non-nil error. -/
structure WalkResult (α : Type) where
  fs : α
  out : List Output
  err : Bool
deriving Repr

/-- Whether `lstat` fails on the node. -/
def Node.statErr : Node → Bool
  | .file s _ => s
  | .dir s _ _ => s

/-- The method `info.IsDir()`. -/
def Node.isDir : Node → Bool
  | .file _ _ => false
  | .dir _ _ _ => true

/-- Whether `os.Remove` fails on the node (directories are never removed by the program). -/
def Node.removeErr : Node → Bool
  | .file _ r => r
  | .dir _ _ _ => false

/-- Whether listing the node fails (only directories are listed). -/
def Node.readErr : Node → Bool
  | .file _ _ => false
  | .dir _ r _ => r

/-- What is left of an entry after its walk: the entry itself, or nothing when removed. -/
def keepEntry (name : String) : Option Node → Entries
  | some n => [(name, n)]
  | none => []

mutual
/-- The function `walk` of `path/filepath` with the callback of `deleteFilesInDir`. A node that
is not a directory is passed to the callback, which prints and calls `os.Remove`, ignoring its
result. A directory is listed first; the callback returns the listing error, if any, which ends
the walk; otherwise the entries are walked in order. -/
def walk (path : Path) : Node → WalkResult (Option Node)
  | .file s r => ⟨if r then some (.file s r) else none, [.removing path], false⟩
  | .dir s r es =>
    if r then ⟨some (.dir s r es), [], true⟩
    else
      let res := walkEntries path es
      ⟨some (.dir s r res.fs), res.out, res.err⟩
/-- The loop of `walk` over the names of a directory: `lstat` each entry; on failure the
callback returns the error and the walk ends; otherwise walk the entry and end on its error. -/
def walkEntries (path : Path) : Entries → WalkResult Entries
  | [] => ⟨[], [], false⟩
  | (name, n) :: rest =>
    if n.statErr then ⟨(name, n) :: rest, [], true⟩
    else
      let r1 := walk (path ++ [name]) n
      if r1.err then ⟨keepEntry name r1.fs ++ rest, r1.out, true⟩
      else
        let r2 := walkEntries path rest
        ⟨keepEntry name r1.fs ++ r2.fs, r1.out ++ r2.out, r2.err⟩
end

/-- The node a path resolves to inside a node. -/
def Node.find : Node → Path → Option Node
  | n, [] => some n
  | .file _ _, _ :: _ => none
  | .dir _ _ es, name :: rest => (es.lookup name).bind fun c => c.find rest

/-- The node a path resolves to; the empty path resolves to nothing. -/
def Entries.find (es : Entries) : Path → Option Node
  | [] => none
  | name :: rest => (es.lookup name).bind fun c => c.find rest

/-- Replace the first entry called `name` by what `f` makes of it. -/
def Entries.modify (name : String) (f : Node → Option Node) : Entries → Entries
  | [] => []
  | (nm, n) :: rest =>
    if name == nm then keepEntry nm (f n) ++ rest else (nm, n) :: Entries.modify name f rest

/-- Put `new` in place of the node at the path inside a node. -/
def Node.replace (new : Option Node) : Path → Node → Option Node
  | [], _ => new
  | _ :: _, .file s r => some (.file s r)
  | name :: rest, .dir s r es => some (.dir s r (Entries.modify name (Node.replace new rest) es))

/-- Put `new` in place of the node at the path. -/
def Entries.replace (es : Entries) (new : Option Node) : Path → Entries
  | [] => es
  | name :: rest => Entries.modify name (Node.replace new rest) es

/-- The function `filepath.Walk(root, fn)` with the callback of `deleteFilesInDir`: `os.Lstat`
the root; on failure the callback returns the error; otherwise `walk` the root. -/
def Walk (root : Path) (fs : Entries) : WalkResult Entries :=
  match Entries.find fs root with
  | none => ⟨fs, [], true⟩
  | some n =>
    if n.statErr then ⟨fs, [], true⟩
    else ⟨Entries.replace fs (walk root n).fs root, (walk root n).out, (walk root n).err⟩

/-! ## Observing the file system -/

/-- What `lstat` tells about a node: whether it is a directory, and its fault flags. -/
structure Info where
  isDir : Bool
  statErr : Bool
  readErr : Bool
  removeErr : Bool
deriving DecidableEq, Repr

/-- The `os.FileInfo` of a node, with its fault flags. -/
def Node.info (n : Node) : Info := ⟨n.isDir, n.statErr, n.readErr, n.removeErr⟩

/-- The information found at a path below a node. -/
def Node.stat (n : Node) (q : Path) : Option Info := (n.find q).map Node.info

/-- The information found at a path below a node that may have been removed. -/
def statOpt (o : Option Node) (q : Path) : Option Info := o.bind fun n => n.stat q

/-- The information found at a path. -/
def Entries.stat (es : Entries) (q : Path) : Option Info := (Entries.find es q).map Node.info

mutual
/-- Entry names are pairwise distinct in every directory of the node. -/
def Node.wf : Node → Bool
  | .file _ _ => true
  | .dir _ _ es => wfEntries es
/-- Entry names are pairwise distinct in the list and in every directory below it. -/
def wfEntries : Entries → Bool
  | [] => true
  | (name, n) :: rest => (rest.lookup name).isNone && n.wf && wfEntries rest
end

mutual
/-- No `lstat` and no directory listing fails in the node or below it. -/
def Node.traversable : Node → Bool
  | .file s _ => !s
  | .dir s r es => !s && !r && traversableEntries es
/-- No `lstat` and no directory listing fails in the entries or below them. -/
def traversableEntries : Entries → Bool
  | [] => true
  | (_, n) :: rest => n.traversable && traversableEntries rest
end

mutual
/-- No `lstat`, no directory listing and no removal fails in the node or below it. -/
def Node.clean : Node → Bool
  | .file s r => !s && !r
  | .dir s r es => !s && !r && cleanEntries es
/-- No `lstat`, no directory listing and no removal fails in the entries or below them. -/
def cleanEntries : Entries → Bool
  | [] => true
  | (_, n) :: rest => n.clean && cleanEntries rest
end

/-- The information found at the relative path `r` below what the path `root` resolves to. -/
def Entries.statUnder (fs : Entries) (root r : Path) : Option Info :=
  statOpt (Entries.find fs root) r

/-! ## The walk as a pass over a listing -/

/-- Whether traversal fails at a node: `lstat` fails on it or it cannot be listed. -/
def Info.fault (i : Info) : Bool := i.statErr || i.readErr

/-- Whether a node met by the walk stays: a directory, or a file whose removal fails. -/
def Info.kept (i : Info) : Bool := i.isDir || i.removeErr

mutual
/-- The nodes at and below a node in the order in which `Walk` meets them: a directory, then
its entries in order, each with what is below it; every node with its path and information. -/
def Node.listing (path : Path) : Node → List (Path × Info)
  | .file s r => [(path, (Node.file s r).info)]
  | .dir s r es => (path, (Node.dir s r es).info) :: listingEntries path es
/-- The nodes below the entries of a directory, in the order in which `Walk` meets them. -/
def listingEntries (path : Path) : Entries → List (Path × Info)
  | [] => []
  | (name, n) :: rest => n.listing (path ++ [name]) ++ listingEntries path rest
end

/-- The listing of a node that may have been removed. -/
def listingOpt (path : Path) : Option Node → List (Path × Info)
  | none => []
  | some n => n.listing path

/-- What is left of a listing by a pass that stops at the first traversal failure: before
it the nodes that stay, from it on everything. -/
def sweep : List (Path × Info) → List (Path × Info)
  | [] => []
  | (p, i) :: rest =>
    if i.fault then (p, i) :: rest
    else if i.kept then (p, i) :: sweep rest
    else sweep rest

/-- The lines printed by a pass that stops at the first traversal failure: one for each file
met before it. -/
def sweepOut : List (Path × Info) → List Output
  | [] => []
  | (p, i) :: rest =>
    if i.fault then []
    else if i.isDir then sweepOut rest
    else Output.removing p :: sweepOut rest

/-- Whether a traversal failure occurs in a listing. -/
def sweepErr (l : List (Path × Info)) : Bool := l.any fun e => e.2.fault

/-! ## The program -/

/-- The struct `Config`. -/
structure Config where
  GitRepoPath : Path
  LocalCodePath : Path
  TimeLimitSec : Int
deriving DecidableEq, Repr

/-- The package variables `endTime`, `isRunning`, the live watcher goroutines (each with the
`config` it captured), the file system and the standard output. -/
structure World where
  endTime : Int
  isRunning : Bool
  watchers : List Config
  fs : Entries
  out : List Output
deriving Repr

/-- The world at process start, on a given file system. -/
def World.init (fs : Entries) : World :=
  { endTime := 0, isRunning := false, watchers := [], fs := fs, out := [] }

/-- A loaded `*ini.File`, seen through the one chain of methods the program calls on it:
`value s k` is the text `Section(s).Key(k).String()` yields when the key `k` is present in
the section `s` (the value the library kept for it, references expanded), `none` when the
section or the key is absent. -/
structure IniFile where
  value : String → String → Option String

/-- The expression `cfg.Section(s).Key(k).String()`: an absent section or key is created
empty, so its text is the empty string. -/
def IniFile.keyString (cfg : IniFile) (s k : String) : String :=
  match cfg.value s k with
  | some v => v
  | none => ""

/-- What `strconv.ParseInt(v, 0, 64)` tells: a number, a syntax error, or a range error for
a number below (`negative`) or above the `int64` range. -/
inductive ParseResult where
  | ok (n : Int)
  | syntaxError
  | rangeError (negative : Bool)
deriving DecidableEq, Repr

/-- The value `strconv.ParseInt` returns next to its error: the number; `0` with a syntax
error; the nearest bound of `int64` with a range error. -/
def ParseResult.value : ParseResult → Int
  | .ok n => n
  | .syntaxError => 0
  | .rangeError false => 9223372036854775807
  | .rangeError true => -9223372036854775808

/-- The method `MustInt()` of `go-ini`, called without a default: `val, err := k.Int()`,
`return val`, where `Int` returns `int(v), err` for `v, err := strconv.ParseInt(text, 0, 64)`.
The error is dropped and the value returned with it is kept. `atoi` is `strconv.ParseInt`. -/
def mustInt (atoi : String → ParseResult) (v : String) : Int :=
  (atoi v).value

/-- The function `loadConfig`. `source` is what `ini.Load("config.ini")` returns: `none` when
it returns an error (the file is missing or cannot be parsed). `atoi` is `strconv.ParseInt`,
`toPath` splits a path string into its components. -/
def loadConfig (atoi : String → ParseResult) (toPath : String → Path)
    (source : Option IniFile) : Except String Config :=
  match source with
  | none => .error "ini.Load"
  | some cfg =>
    .ok { GitRepoPath := toPath (cfg.keyString "Settings" "git_repo_path")
          LocalCodePath := toPath (cfg.keyString "Settings" "local_code_path")
          TimeLimitSec := mustInt atoi (cfg.keyString "Settings" "time_limit_seconds") }

/-- A `config.ini` with the two paths of section `Settings` and, when `limit` is given, that
text for `time_limit_seconds`. -/
def sampleIni (limit : Option String) : IniFile :=
  ⟨fun s k =>
    if s = "Settings" then
      if k = "git_repo_path" then some "repo"
      else if k = "local_code_path" then some "code"
      else if k = "time_limit_seconds" then limit
      else none
    else none⟩

/-- The part of `strconv.ParseInt` used in the examples: `60` is a number, the number
`9223372036854775808` is above the `int64` range, the empty text and `soon` are not numbers. -/
def sampleAtoi (v : String) : ParseResult :=
  if v = "60" then .ok 60
  else if v = "9223372036854775808" then .rangeError false
  else .syntaxError

/-- The function `deleteFilesInDir`. -/
def deleteFilesInDir (dirPath : Path) (w : World) : World :=
  let r := Walk dirPath w.fs
  { w with
    fs := r.fs
    out := w.out ++ [.deleting dirPath] ++ r.out ++ [if r.err then .errorCleaning else .cleaned] }

/-- The function `startCountdown`, up to and including the `go` statement; `now` is the value
of `time.Now()` read inside. -/
def startCountdown (config : Config) (now : Int) (w : World) : World :=
  if w.isRunning then w
  else
    { w with
      isRunning := true
      endTime := Time.Add now (Duration.ofSeconds config.TimeLimitSec)
      out := w.out ++ [.countdownStarted (Time.Add now (Duration.ofSeconds config.TimeLimitSec))]
      watchers := w.watchers ++ [config] }

/-- One iteration of the watcher loop after its sleep, `now` being the value of `time.Now()`:
the world it leaves and whether the loop was left by `break`. -/
def watcherWake (config : Config) (now : Int) (w : World) : World × Bool :=
  if Time.After now w.endTime then
    ({ deleteFilesInDir config.GitRepoPath (deleteFilesInDir config.LocalCodePath w) with
        isRunning := false }, true)
  else (w, false)

/-- A wake-up of the `i`-th live watcher; a watcher that leaves its loop is no longer live. -/
def watcherStep (i : Nat) (now : Int) (w : World) : World :=
  match w.watchers.get? i with
  | none => w
  | some config =>
    if (watcherWake config now w).2 then
      { (watcherWake config now w).1 with watchers := w.watchers.eraseIdx i }
    else (watcherWake config now w).1

/-- The function `getRemainingTime`; `now` is the value of `time.Now()` read inside. -/
def getRemainingTime (now : Int) (w : World) : Int :=
  if !w.isRunning then 0
  else
    let remaining := (Duration.Seconds (Time.Sub w.endTime now)).toInt
    if remaining < 0 then 0 else remaining

/-- The transitions of the process: a request to `/delCode` or a wake-up of a live watcher. -/
inductive Step : World → World → Prop where
  | arm (config : Config) (now : Int) (w : World) : Step w (startCountdown config now w)
  | wake (i : Nat) (now : Int) (w : World) (h : i < w.watchers.length) :
      Step w (watcherStep i now w)

/-- The worlds reachable from process start. -/
inductive Reachable : World → Prop where
  | init (fs : Entries) : Reachable (World.init fs)
  | step {w w1 : World} : Reachable w → Step w w1 → Reachable w1

/-- The number of live watchers that goes with the flag `isRunning`. -/
def watcherInvariant (w : World) : Prop :=
  w.watchers.length = if w.isRunning then 1 else 0

/-! ## Specification of float64 rounding -/

/-- The rational number a float stands for. -/
def Float64.toRat (x : Float64) : ℚ := x.mant * (2 : ℚ) ^ x.exp

/-- A rational that some float64 stands for: an integer below `2 ^ 53` in absolute value
times a power of two. -/
def Representable (w : ℚ) : Prop := ∃ k t : ℤ, |k| < 2 ^ 53 ∧ w = k * (2 : ℚ) ^ t

/-- The integer `m` is nearest to `u`, and even when `u` lies halfway between two integers. -/
def IsRoundEven (u : ℚ) (m : ℤ) : Prop :=
  |(m : ℚ) - u| ≤ 1 / 2 ∧ (|(m : ℚ) - u| = 1 / 2 → Even m)

/-- The float `f` is the positive rational `x` rounded to 53 bits, ties to even. -/
def RoundsPos (x : ℚ) (f : Float64) : Prop :=
  ∃ e : ℤ, (2 : ℚ) ^ e ≤ x ∧ x < 2 ^ (e + 1) ∧ f.exp = e - 52 ∧
    IsRoundEven (x / 2 ^ (e - 52)) f.mant

/-- The float `f` is the rational `x` rounded to 53 bits, ties to even. -/
def Rounds (x : ℚ) (f : Float64) : Prop :=
  (x = 0 ∧ f = ⟨0, 0⟩) ∨ (0 < x ∧ RoundsPos x f) ∨ (x < 0 ∧ RoundsPos (-x) ⟨-f.mant, f.exp⟩)

/-! ## Arming -/

/-- No wrap occurs when a number of seconds between 0 and 9223372036 is turned into a
`Duration`. -/
theorem Duration.ofSeconds_eq (n : Int) (h0 : 0 ≤ n) (h1 : n ≤ 9223372036) :
    Duration.ofSeconds n = n * 1000000000 := by
  have h63 : (2 : Int) ^ 63 = 9223372036854775808 := by norm_num
  have h64 : (2 : Int) ^ 64 = 18446744073709551616 := by norm_num
  unfold Duration.ofSeconds wrapInt64 Second
  rw [h63, h64]
  have e1 : (n + 9223372036854775808) % 18446744073709551616 - 9223372036854775808 = n := by
    omega
  rw [e1]
  show ((n * 1000000000 + 9223372036854775808) % 18446744073709551616
    - 9223372036854775808 : Int) = n * 1000000000
  omega

/-- C1 (as stated) fails: with `TimeLimitSec = 9223372037` the multiplication by
`time.Second` wraps, and arming at clock reading `0` sets `endTime` about 292 years in the
past instead of `0 + 9223372037` seconds. -/
theorem C1_counterexample :
    (0 : Int) < (Config.mk [] [] 9223372037).TimeLimitSec ∧
    (World.init []).isRunning = false ∧
    (startCountdown (Config.mk [] [] 9223372037) 0 (World.init [])).endTime
      = -9223372036709551616 ∧
    (startCountdown (Config.mk [] [] 9223372037) 0 (World.init [])).endTime
      ≠ 0 + 9223372037 * 1000000000 := by
  decide

/-- C1 (amended): for a time limit between 1 and 9223372036 seconds, `startCountdown` on a
world that is not running sets `isRunning`, sets `endTime` to `now` plus that many seconds
and starts one watcher holding the configuration. -/
theorem C1_startCountdown_arms (config : Config) (now : Int) (w : World)
    (hidle : w.isRunning = false) (hpos : 0 < config.TimeLimitSec)
    (hmax : config.TimeLimitSec ≤ 9223372036) :
    (startCountdown config now w).isRunning = true ∧
    (startCountdown config now w).endTime = now + config.TimeLimitSec * 1000000000 ∧
    (startCountdown config now w).watchers = w.watchers ++ [config] := by
  have hd := Duration.ofSeconds_eq config.TimeLimitSec (le_of_lt hpos) hmax
  simp [startCountdown, hidle, Time.Add, hd]

/-- C1 (amended), at a two-second limit armed at clock reading 5000000000. -/
theorem C1_startCountdown_arms_witness :
    (World.init []).isRunning = false ∧
    (0 : Int) < (Config.mk ["git"] ["code"] 2).TimeLimitSec ∧
    (Config.mk ["git"] ["code"] 2).TimeLimitSec ≤ 9223372036 ∧
    (startCountdown (Config.mk ["git"] ["code"] 2) 5000000000 (World.init [])).isRunning = true ∧
    (startCountdown (Config.mk ["git"] ["code"] 2) 5000000000 (World.init [])).endTime
      = 5000000000 + (Config.mk ["git"] ["code"] 2).TimeLimitSec * 1000000000 ∧
    (startCountdown (Config.mk ["git"] ["code"] 2) 5000000000 (World.init [])).watchers
      = (World.init []).watchers ++ [Config.mk ["git"] ["code"] 2] :=
  ⟨rfl, by decide, by decide,
    C1_startCountdown_arms (Config.mk ["git"] ["code"] 2) 5000000000 (World.init []) rfl
      (by decide) (by decide)⟩

/-- C2: `startCountdown` on a running world changes nothing, whatever the configuration and
the clock: `isRunning`, `endTime`, the watchers, the files and the output stay as they are. -/
theorem C2_startCountdown_running_noop (config : Config) (now : Int) (w : World)
    (hrun : w.isRunning = true) :
    startCountdown config now w = w := by
  simp [startCountdown, hrun]

/-- C2, at a world armed by a first configuration and asked again with another one. -/
theorem C2_startCountdown_running_noop_witness :
    (startCountdown (Config.mk ["g1"] ["c1"] 10) 0 (World.init [])).isRunning = true ∧
    startCountdown (Config.mk ["g2"] ["c2"] 99) 1000
        (startCountdown (Config.mk ["g1"] ["c1"] 10) 0 (World.init []))
      = startCountdown (Config.mk ["g1"] ["c1"] 10) 0 (World.init []) :=
  ⟨rfl, C2_startCountdown_running_noop (Config.mk ["g2"] ["c2"] 99) 1000
    (startCountdown (Config.mk ["g1"] ["c1"] 10) 0 (World.init [])) rfl⟩

/-! ## The watcher before expiry -/

/-- C3: a wake-up of a watcher on a running world at a time not after `endTime` deletes
nothing and prints nothing: the world is returned as it was, the loop is not left, and the
set of live watchers is unchanged. -/
theorem C3_watcher_before_expiry (config : Config) (now : Int) (w : World) (i : Nat)
    (_hrun : w.isRunning = true) (hnow : now ≤ w.endTime) :
    watcherWake config now w = (w, false) ∧ watcherStep i now w = w := by
  have hA : Time.After now w.endTime = false := by
    simp [Time.After, hnow]
  have hW : ∀ c : Config, watcherWake c now w = (w, false) := by
    intro c
    simp [watcherWake, hA]
  refine ⟨hW config, ?_⟩
  unfold watcherStep
  cases hget : w.watchers.get? i with
  | none => rfl
  | some c => simp [hW c]

/-- C3, at a world armed at 0 for ten seconds and woken exactly at the deadline. -/
theorem C3_watcher_before_expiry_witness :
    (startCountdown (Config.mk ["g"] ["c"] 10) 0
        (World.init [("c", Node.file false false)])).isRunning = true ∧
    (10000000000 : Int) ≤ (startCountdown (Config.mk ["g"] ["c"] 10) 0
        (World.init [("c", Node.file false false)])).endTime ∧
    watcherWake (Config.mk ["g"] ["c"] 10) 10000000000
        (startCountdown (Config.mk ["g"] ["c"] 10) 0 (World.init [("c", Node.file false false)]))
      = (startCountdown (Config.mk ["g"] ["c"] 10) 0
          (World.init [("c", Node.file false false)]), false) ∧
    watcherStep 0 10000000000
        (startCountdown (Config.mk ["g"] ["c"] 10) 0 (World.init [("c", Node.file false false)]))
      = startCountdown (Config.mk ["g"] ["c"] 10) 0 (World.init [("c", Node.file false false)]) :=
  ⟨rfl, by decide,
    C3_watcher_before_expiry (Config.mk ["g"] ["c"] 10) 10000000000
      (startCountdown (Config.mk ["g"] ["c"] 10) 0 (World.init [("c", Node.file false false)])) 0
      rfl (by decide)⟩

/-! ## One watcher at a time -/

/-- The function `deleteFilesInDir` touches neither the watchers nor the countdown state. -/
theorem deleteFilesInDir_state (p : Path) (w : World) :
    (deleteFilesInDir p w).watchers = w.watchers ∧
    (deleteFilesInDir p w).isRunning = w.isRunning ∧
    (deleteFilesInDir p w).endTime = w.endTime := by
  simp [deleteFilesInDir]

/-- The invariant is kept by `startCountdown`. -/
theorem watcherInvariant_startCountdown (config : Config) (now : Int) (w : World)
    (h : watcherInvariant w) : watcherInvariant (startCountdown config now w) := by
  unfold watcherInvariant at *
  unfold startCountdown
  cases hr : w.isRunning with
  | true => simpa [hr] using h
  | false =>
    rw [hr] at h
    simp at h
    simp [h]

/-- The invariant is kept by a watcher wake-up. -/
theorem watcherInvariant_watcherStep (i : Nat) (now : Int) (w : World)
    (h : watcherInvariant w) : watcherInvariant (watcherStep i now w) := by
  unfold watcherInvariant at *
  unfold watcherStep
  cases hget : w.watchers.get? i with
  | none => simpa using h
  | some c =>
    have hi : i < w.watchers.length := by
      rcases List.get?_eq_some.1 hget with ⟨hlt, _⟩
      exact hlt
    have hrun : w.isRunning = true := by
      cases hr : w.isRunning with
      | true => rfl
      | false =>
        rw [hr] at h
        simp at h
        rw [h] at hi
        simp at hi
    rw [hrun] at h
    simp at h
    cases hA : Time.After now w.endTime with
    | false => simp [watcherWake, hA, hrun, h]
    | true =>
      simp [watcherWake, hA, List.length_eraseIdx, hi, h]
      omega

/-- C10: in every world reachable from process start by `startCountdown` calls and watcher
wake-ups there is exactly one live watcher while `isRunning` is true and none while it is
false; in particular never more than one. -/
theorem C10_one_watcher (w : World) (h : Reachable w) :
    (w.watchers.length = if w.isRunning then 1 else 0) ∧ w.watchers.length ≤ 1 := by
  have hinv : watcherInvariant w := by
    induction h with
    | init fs => simp [watcherInvariant, World.init]
    | step _ hs ih =>
      cases hs with
      | arm config now w0 => exact watcherInvariant_startCountdown config now _ ih
      | wake i now w0 hi => exact watcherInvariant_watcherStep i now _ ih
  refine ⟨hinv, ?_⟩
  unfold watcherInvariant at hinv
  rw [hinv]
  split <;> simp

/-- C10, at the world reached by arming twice and then waking the watcher after expiry. -/
theorem C10_one_watcher_witness :
    Reachable (watcherStep 0 99000000000
      (startCountdown (Config.mk ["g"] ["c"] 7) 1000
        (startCountdown (Config.mk ["g"] ["c"] 3) 0 (World.init [])))) ∧
    ((watcherStep 0 99000000000
      (startCountdown (Config.mk ["g"] ["c"] 7) 1000
        (startCountdown (Config.mk ["g"] ["c"] 3) 0 (World.init [])))).watchers.length
      = if (watcherStep 0 99000000000
          (startCountdown (Config.mk ["g"] ["c"] 7) 1000
            (startCountdown (Config.mk ["g"] ["c"] 3) 0 (World.init [])))).isRunning
        then 1 else 0) ∧
    (watcherStep 0 99000000000
      (startCountdown (Config.mk ["g"] ["c"] 7) 1000
        (startCountdown (Config.mk ["g"] ["c"] 3) 0 (World.init [])))).watchers.length ≤ 1 :=
  have hr : Reachable (watcherStep 0 99000000000
      (startCountdown (Config.mk ["g"] ["c"] 7) 1000
        (startCountdown (Config.mk ["g"] ["c"] 3) 0 (World.init [])))) :=
    Reachable.step
      (Reachable.step
        (Reachable.step (Reachable.init []) (Step.arm (Config.mk ["g"] ["c"] 3) 0 _))
        (Step.arm (Config.mk ["g"] ["c"] 7) 1000 _))
      (Step.wake 0 99000000000 _ (by decide))
  ⟨hr, C10_one_watcher _ hr⟩

/-! ## Loading the configuration -/

/-- C9 (as stated) fails: with `config.ini` loaded and the key `time_limit_seconds` absent,
or present with the text `soon`, `loadConfig` returns a configuration (time limit 0) and no
error. -/
theorem C9_counterexample :
    loadConfig sampleAtoi (fun v => [v]) (some (sampleIni none))
      = Except.ok (Config.mk ["repo"] ["code"] 0) ∧
    loadConfig sampleAtoi (fun v => [v]) (some (sampleIni (some "soon")))
      = Except.ok (Config.mk ["repo"] ["code"] 0) := by
  constructor <;> rfl

/-- C9 (amended): `loadConfig` returns an error, and no configuration, exactly when
`ini.Load` does; when the file loads, `loadConfig` returns the configuration made of the
two paths and of the value `strconv.ParseInt` returns for the text of `time_limit_seconds`
(the empty text when the key is absent): the number when the text parses, 0 when it is
rejected as not a number, `MaxInt64` or `MinInt64` when it is rejected as out of range. In
particular an absent key gives 0, the empty text being rejected as not a number. -/
theorem C9_loadConfig (atoi : String → ParseResult) (toPath : String → Path) :
    loadConfig atoi toPath none = Except.error "ini.Load" ∧
    (∀ cfg : IniFile, ∃ c : Config,
      loadConfig atoi toPath (some cfg) = Except.ok c ∧
      c.GitRepoPath = toPath
        (match cfg.value "Settings" "git_repo_path" with
          | some v => v
          | none => "") ∧
      c.LocalCodePath = toPath
        (match cfg.value "Settings" "local_code_path" with
          | some v => v
          | none => "") ∧
      c.TimeLimitSec =
        (match atoi (match cfg.value "Settings" "time_limit_seconds" with
            | some v => v
            | none => "") with
          | ParseResult.ok n => n
          | ParseResult.syntaxError => 0
          | ParseResult.rangeError false => 9223372036854775807
          | ParseResult.rangeError true => -9223372036854775808)) ∧
    (atoi "" = ParseResult.syntaxError →
      ∀ cfg : IniFile, cfg.value "Settings" "time_limit_seconds" = none →
        ∃ c : Config, loadConfig atoi toPath (some cfg) = Except.ok c ∧ c.TimeLimitSec = 0) := by
  refine ⟨rfl, fun cfg => ⟨_, rfl, rfl, rfl, ?_⟩, fun h cfg hc => ⟨_, rfl, ?_⟩⟩
  · show mustInt atoi (cfg.keyString "Settings" "time_limit_seconds") = _
    unfold mustInt IniFile.keyString
    cases cfg.value "Settings" "time_limit_seconds" with
    | none =>
      cases h0 : atoi "" with
      | ok n => rfl
      | syntaxError => rfl
      | rangeError b => cases b <;> rfl
    | some v =>
      cases h0 : atoi v with
      | ok n => rfl
      | syntaxError => rfl
      | rangeError b => cases b <;> rfl
  · show mustInt atoi (cfg.keyString "Settings" "time_limit_seconds") = 0
    unfold mustInt IniFile.keyString
    rw [hc]
    show (atoi "").value = 0
    rw [h]
    rfl

/-- C9 (amended), at a file without the key, and at a file whose limit is above `int64`. -/
theorem C9_loadConfig_witness :
    sampleAtoi "" = ParseResult.syntaxError ∧
    (sampleIni none).value "Settings" "time_limit_seconds" = none ∧
    (∃ c : Config, loadConfig sampleAtoi (fun v => [v]) (some (sampleIni none)) = Except.ok c ∧
      c.TimeLimitSec = 0) ∧
    loadConfig sampleAtoi (fun v => [v]) (some (sampleIni (some "9223372036854775808")))
      = Except.ok (Config.mk ["repo"] ["code"] 9223372036854775807) ∧
    loadConfig sampleAtoi (fun v => [v]) (some (sampleIni (some "60")))
      = Except.ok (Config.mk ["repo"] ["code"] 60) :=
  ⟨rfl, rfl,
    (C9_loadConfig sampleAtoi (fun v => [v])).2.2 rfl (sampleIni none) rfl,
    rfl, rfl⟩

/-! ## float64 rounding is correct, nearest and monotone -/

theorem log2Aux_spec : ∀ (fuel n : Nat), 0 < n → n ≤ fuel →
    2 ^ log2Aux fuel n ≤ n ∧ n < 2 ^ (log2Aux fuel n + 1)
  | 0, n, h0, h1 => by omega
  | fuel + 1, n, h0, h1 => by
    unfold log2Aux
    by_cases h2 : n < 2
    · simp only [h2, if_true]
      omega
    · simp only [h2, if_false]
      have ih := log2Aux_spec fuel (n / 2) (by omega) (by omega)
      rw [pow_succ, pow_succ]
      constructor
      · have := ih.1
        omega
      · have := ih.2
        rw [pow_succ] at this
        omega

theorem ilog2_spec (n : Nat) (h : 0 < n) : 2 ^ ilog2 n ≤ n ∧ n < 2 ^ (ilog2 n + 1) :=
  log2Aux_spec n n h (le_refl n)

theorem roundHalfEven_spec (N D : Nat) (hD : 0 < D) :
    IsRoundEven ((N : ℚ) / D) (roundHalfEven N D) := by
  have hDq : (0 : ℚ) < D := by exact_mod_cast hD
  have hN : (N : ℚ) = (D : ℚ) * ((N / D : ℕ) : ℚ) + ((N % D : ℕ) : ℚ) := by
    exact_mod_cast (Nat.div_add_mod N D).symm
  have hr : N % D < D := Nat.mod_lt N hD
  have hu : (N : ℚ) / D = ((N / D : ℕ) : ℚ) + ((N % D : ℕ) : ℚ) / D := by
    rw [hN]
    field_simp
    ring
  unfold roundHalfEven IsRoundEven
  simp only
  rw [hu]
  set q := N / D with hq
  set r := N % D with hrr
  have hr0 : (0 : ℚ) ≤ (r : ℚ) / D := by positivity
  by_cases h1 : 2 * r < D
  · simp only [h1, if_true]
    have h1q : (r : ℚ) / D < 1 / 2 := by
      rw [div_lt_iff₀ hDq]
      have : ((2 * r : ℕ) : ℚ) < D := by exact_mod_cast h1
      push_cast at this
      linarith
    have habs : |((q : ℤ) : ℚ) - ((q : ℚ) + (r : ℚ) / D)| = (r : ℚ) / D := by
      rw [abs_sub_comm]
      push_cast
      rw [add_sub_cancel_left, abs_of_nonneg hr0]
    rw [habs]
    exact ⟨le_of_lt h1q, fun h => absurd h (ne_of_lt h1q)⟩
  · simp only [h1, if_false]
    by_cases h2 : D < 2 * r
    · simp only [h2, if_true]
      have h2q : 1 / 2 < (r : ℚ) / D := by
        rw [lt_div_iff₀ hDq]
        have : (D : ℚ) < ((2 * r : ℕ) : ℚ) := by exact_mod_cast h2
        push_cast at this
        linarith
      have h3q : (r : ℚ) / D < 1 := by
        rw [div_lt_one hDq]
        exact_mod_cast hr
      have habs : |(((q + 1 : ℕ) : ℤ) : ℚ) - ((q : ℚ) + (r : ℚ) / D)| = 1 - (r : ℚ) / D := by
        push_cast
        rw [show (q : ℚ) + 1 - ((q : ℚ) + (r : ℚ) / D) = 1 - (r : ℚ) / D by ring]
        exact abs_of_nonneg (by linarith)
      rw [habs]
      exact ⟨by linarith, fun h => by linarith⟩
    · simp only [h2, if_false]
      have h3 : 2 * r = D := by omega
      have h3q : (r : ℚ) / D = 1 / 2 := by
        rw [div_eq_iff (ne_of_gt hDq)]
        have : ((2 * r : ℕ) : ℚ) = D := by exact_mod_cast h3
        push_cast at this
        linarith
      rw [h3q]
      by_cases h4 : q % 2 = 0
      · simp only [h4, if_true]
        refine ⟨?_, fun _ => ?_⟩
        · push_cast
          rw [show (q : ℚ) - ((q : ℚ) + 1 / 2) = -(1 / 2) by ring, abs_neg]
          rw [abs_of_nonneg (by norm_num : (0 : ℚ) ≤ 1 / 2)]
        · exact (Int.even_coe_nat q).2 (Nat.even_iff.2 h4)
      · simp only [h4, if_false]
        refine ⟨?_, fun _ => ?_⟩
        · push_cast
          rw [show (q : ℚ) + 1 - ((q : ℚ) + 1 / 2) = 1 / 2 by ring]
          rw [abs_of_nonneg (by norm_num : (0 : ℚ) ≤ 1 / 2)]
        · refine (Int.even_coe_nat (q + 1)).2 ?_
          rw [Nat.even_iff]
          omega

theorem two_pow_toNat_ratio (s : ℤ) :
    ((2 : ℚ) ^ s.toNat) / (2 : ℚ) ^ (-s).toNat = (2 : ℚ) ^ s := by
  rcases le_total 0 s with h | h
  · have h1 : (-s).toNat = 0 := Int.toNat_eq_zero.2 (by omega)
    rw [h1, pow_zero, div_one, ← zpow_natCast, Int.toNat_of_nonneg h]
  · have h1 : s.toNat = 0 := Int.toNat_eq_zero.2 h
    have h2 : ((-s).toNat : ℤ) = -s := Int.toNat_of_nonneg (by omega)
    rw [h1, pow_zero, ← zpow_natCast, h2, zpow_neg, one_div, inv_inv]

theorem roundPos_mant (n d : Nat) :
    (roundPos n d).mant = roundHalfEven (n * 2 ^ (-(roundPos n d).exp).toNat)
      (d * 2 ^ ((roundPos n d).exp).toNat) := rfl

theorem roundPos_exp (n d : Nat) :
    (roundPos n d).exp = (if d * 2 ^ ilog2 n ≤ n * 2 ^ ilog2 d
      then (ilog2 n : Int) - ilog2 d else (ilog2 n : Int) - ilog2 d - 1) - 52 := rfl

theorem scaled_ratio (n d : Nat) (hd : 0 < d) (s : ℤ) :
    ((n * 2 ^ (-s).toNat : ℕ) : ℚ) / ((d * 2 ^ s.toNat : ℕ) : ℚ) = (n : ℚ) / d / 2 ^ s := by
  have hdq : (d : ℚ) ≠ 0 := by exact_mod_cast (ne_of_gt hd)
  have h2 : ∀ k : ℕ, ((2 : ℚ) ^ k) ≠ 0 := fun k => pow_ne_zero k (by norm_num)
  rw [← two_pow_toNat_ratio s]
  push_cast
  field_simp

theorem roundPos_spec (n d : Nat) (hn : 0 < n) (hd : 0 < d) :
    RoundsPos ((n : ℚ) / d) (roundPos n d) := by
  obtain ⟨ha1, ha2⟩ := ilog2_spec n hn
  obtain ⟨hb1, hb2⟩ := ilog2_spec d hd
  have hdq : (0 : ℚ) < d := by exact_mod_cast hd
  have hnq : (0 : ℚ) < n := by exact_mod_cast hn
  have qa1 : (2 : ℚ) ^ ilog2 n ≤ n := by exact_mod_cast ha1
  have qa2 : (n : ℚ) < 2 * 2 ^ ilog2 n := by
    have : (n : ℚ) < 2 ^ (ilog2 n + 1) := by exact_mod_cast ha2
    rw [pow_succ] at this
    linarith
  have qb1 : (2 : ℚ) ^ ilog2 d ≤ d := by exact_mod_cast hb1
  have qb2 : (d : ℚ) < 2 * 2 ^ ilog2 d := by
    have : (d : ℚ) < 2 ^ (ilog2 d + 1) := by exact_mod_cast hb2
    rw [pow_succ] at this
    linarith
  have pa : (0 : ℚ) < 2 ^ ilog2 n := by positivity
  have pb : (0 : ℚ) < 2 ^ ilog2 d := by positivity
  have hz : ((2 : ℚ) ^ ((ilog2 n : ℤ) - (ilog2 d : ℤ))) = 2 ^ ilog2 n / 2 ^ ilog2 d := by
    rw [zpow_sub₀ (by norm_num : (2 : ℚ) ≠ 0), zpow_natCast, zpow_natCast]
  have hmant := roundHalfEven_spec (n * 2 ^ (-(roundPos n d).exp).toNat)
    (d * 2 ^ ((roundPos n d).exp).toNat) (by positivity)
  rw [scaled_ratio n d hd, ← roundPos_mant] at hmant
  by_cases hc : d * 2 ^ ilog2 n ≤ n * 2 ^ ilog2 d
  · have hcq : (d : ℚ) * 2 ^ ilog2 n ≤ n * 2 ^ ilog2 d := by exact_mod_cast hc
    have hexp : (roundPos n d).exp = ((ilog2 n : ℤ) - ilog2 d) - 52 := by
      rw [roundPos_exp, if_pos hc]
    refine ⟨(ilog2 n : ℤ) - ilog2 d, ?_, ?_, hexp, ?_⟩
    · rw [hz, div_le_div_iff₀ pb hdq]
      linarith
    · rw [zpow_add_one₀ (by norm_num : (2 : ℚ) ≠ 0), hz, div_mul_eq_mul_div,
        div_lt_div_iff₀ hdq pb]
      nlinarith
    · rw [← hexp]
      exact hmant
  · have hcq : (n : ℚ) * 2 ^ ilog2 d < d * 2 ^ ilog2 n := by
      have := not_le.1 hc
      exact_mod_cast this
    have hexp : (roundPos n d).exp = ((ilog2 n : ℤ) - ilog2 d - 1) - 52 := by
      rw [roundPos_exp, if_neg hc]
    refine ⟨(ilog2 n : ℤ) - ilog2 d - 1, ?_, ?_, hexp, ?_⟩
    · rw [zpow_sub_one₀ (by norm_num : (2 : ℚ) ≠ 0), hz, ← div_eq_mul_inv, div_div,
        div_le_div_iff₀ (by positivity) hdq]
      nlinarith
    · rw [sub_add_cancel, hz, div_lt_div_iff₀ hdq pb]
      linarith
    · rw [← hexp]
      exact hmant

theorem IsRoundEven.nearest_int {u : ℚ} {m : ℤ} (h : IsRoundEven u m) (j : ℤ) :
    |(m : ℚ) - u| ≤ |(j : ℚ) - u| := by
  by_contra hlt
  have hlt := not_le.1 hlt
  have hne : j ≠ m := by
    rintro rfl
    exact lt_irrefl _ hlt
  have h1 : (1 : ℚ) ≤ |(j : ℚ) - m| := by
    have : (1 : ℤ) ≤ |j - m| := Int.one_le_abs (sub_ne_zero.2 hne)
    exact_mod_cast this
  have h2 : |(j : ℚ) - m| ≤ |(j : ℚ) - u| + |(m : ℚ) - u| := by
    have := abs_sub_le (j : ℚ) u m
    rwa [abs_sub_comm u (m : ℚ)] at this
  have := h.1
  linarith

theorem IsRoundEven.unique_int {u : ℚ} {m m1 : ℤ} (h : IsRoundEven u m) (h1 : IsRoundEven u m1) :
    m = m1 := by
  by_contra hne
  have hd : (1 : ℚ) ≤ |(m : ℚ) - m1| := by
    have : (1 : ℤ) ≤ |m - m1| := Int.one_le_abs (sub_ne_zero.2 hne)
    exact_mod_cast this
  have htri : |(m : ℚ) - m1| ≤ |(m : ℚ) - u| + |(m1 : ℚ) - u| := by
    have := abs_sub_le (m : ℚ) u m1
    rwa [abs_sub_comm u (m1 : ℚ)] at this
  have ha := h.1
  have hb := h1.1
  have e1 : |(m : ℚ) - u| = 1 / 2 := by linarith
  have e2 : |(m1 : ℚ) - u| = 1 / 2 := by linarith
  have ev1 := h.2 e1
  have ev2 := h1.2 e2
  have hle : |(m : ℚ) - m1| ≤ 1 := by linarith
  have hle1 : |m - m1| ≤ 1 := by exact_mod_cast hle
  have hge1 : 1 ≤ |m - m1| := Int.one_le_abs (sub_ne_zero.2 hne)
  have habs : |m - m1| = 1 := le_antisymm hle1 hge1
  have hev : Even (m - m1) := Even.sub ev1 ev2
  rcases hev with ⟨c, hc⟩
  rcases abs_eq (by norm_num : (0 : ℤ) ≤ 1) |>.1 habs with h3 | h3 <;> omega

theorem two_zpow_exp_unique {x : ℚ} {e e1 : ℤ} (h1 : (2 : ℚ) ^ e ≤ x) (h2 : x < 2 ^ (e + 1))
    (h3 : (2 : ℚ) ^ e1 ≤ x) (h4 : x < 2 ^ (e1 + 1)) : e = e1 := by
  have a : (2 : ℚ) ^ e < 2 ^ (e1 + 1) := lt_of_le_of_lt h1 h4
  have b : (2 : ℚ) ^ e1 < 2 ^ (e + 1) := lt_of_le_of_lt h3 h2
  rw [zpow_lt_zpow_iff_right₀ (by norm_num : (1 : ℚ) < 2)] at a b
  omega

theorem RoundsPos.unique_pos {x : ℚ} {f f1 : Float64} (h : RoundsPos x f) (h1 : RoundsPos x f1) :
    f = f1 := by
  obtain ⟨e, a1, a2, a3, a4⟩ := h
  obtain ⟨e1, b1, b2, b3, b4⟩ := h1
  have he : e = e1 := two_zpow_exp_unique a1 a2 b1 b2
  subst he
  have hm : f.mant = f1.mant := IsRoundEven.unique_int a4 b4
  cases f
  cases f1
  simp only [Float64.mk.injEq]
  exact ⟨hm, by simp only at a3 b3; rw [a3, b3]⟩

/-- The value of a correctly rounded float, its mantissa bounds and its error. -/
theorem RoundsPos.facts {x : ℚ} {f : Float64} (h : RoundsPos x f) :
    ∃ e : ℤ, (2 : ℚ) ^ e ≤ x ∧ x < 2 ^ (e + 1) ∧
      f.toRat = f.mant * 2 ^ (e - 52) ∧
      IsRoundEven (x / 2 ^ (e - 52)) f.mant ∧
      (2 : ℚ) ^ 52 ≤ x / 2 ^ (e - 52) ∧ x / 2 ^ (e - 52) < 2 ^ 53 ∧
      (2 : ℤ) ^ 52 ≤ f.mant ∧ f.mant ≤ 2 ^ 53 := by
  obtain ⟨e, a1, a2, a3, a4⟩ := h
  have hp : (0 : ℚ) < 2 ^ (e - 52) := zpow_pos (by norm_num) _
  have he : (2 : ℚ) ^ e = 2 ^ 52 * 2 ^ (e - 52) := by
    rw [← zpow_natCast, ← zpow_add₀ (by norm_num : (2 : ℚ) ≠ 0)]
    congr 1
    push_cast
    ring
  have he1 : (2 : ℚ) ^ (e + 1) = 2 ^ 53 * 2 ^ (e - 52) := by
    rw [← zpow_natCast, ← zpow_add₀ (by norm_num : (2 : ℚ) ≠ 0)]
    congr 1
    push_cast
    ring
  have u1 : (2 : ℚ) ^ 52 ≤ x / 2 ^ (e - 52) := by
    rw [le_div_iff₀ hp, ← he]
    exact a1
  have u2 : x / 2 ^ (e - 52) < 2 ^ 53 := by
    rw [div_lt_iff₀ hp, ← he1]
    exact a2
  have m1 : (2 : ℤ) ^ 52 ≤ f.mant := by
    by_contra hc
    have hc : f.mant + 1 ≤ 2 ^ 52 := by omega
    have hcq : (f.mant : ℚ) + 1 ≤ 2 ^ 52 := by exact_mod_cast hc
    have := a4.1
    rw [abs_sub_comm, abs_of_nonneg (by linarith)] at this
    linarith
  have m2 : f.mant ≤ 2 ^ 53 := by
    by_contra hc
    have hc : (2 : ℤ) ^ 53 + 1 ≤ f.mant := by omega
    have hcq : (2 : ℚ) ^ 53 + 1 ≤ f.mant := by exact_mod_cast hc
    have := a4.1
    rw [abs_of_nonneg (by linarith)] at this
    linarith
  refine ⟨e, a1, a2, ?_, a4, u1, u2, m1, m2⟩
  unfold Float64.toRat
  rw [a3]

/-- A representable number at or above `2 ^ e` is an integer multiple of `2 ^ (e - 52)`. -/
theorem Representable.multiple {w : ℚ} (hw : Representable w) {e : ℤ} (he : (2 : ℚ) ^ e ≤ w) :
    ∃ j : ℤ, w = j * 2 ^ (e - 52) := by
  obtain ⟨k, t, hk, rfl⟩ := hw
  have h2 : (2 : ℚ) ≠ 0 := by norm_num
  by_cases ht : e - 52 ≤ t
  · refine ⟨k * 2 ^ (t - (e - 52)).toNat, ?_⟩
    have hn : (((t - (e - 52)).toNat : ℕ) : ℤ) = t - (e - 52) := Int.toNat_of_nonneg (by omega)
    have hsplit : (2 : ℚ) ^ t = 2 ^ (t - (e - 52)) * 2 ^ (e - 52) := by
      rw [← zpow_add₀ h2, sub_add_cancel]
    rw [hsplit]
    push_cast
    rw [← zpow_natCast (2 : ℚ), hn]
    ring
  · exfalso
    have ht : t + 53 ≤ e := by omega
    have hp : (0 : ℚ) < 2 ^ t := zpow_pos (by norm_num) _
    have h53 : (2 : ℚ) ^ (53 : ℕ) * 2 ^ t ≤ 2 ^ e := by
      rw [← zpow_natCast, ← zpow_add₀ h2]
      exact zpow_le_zpow_right₀ (by norm_num) (by push_cast; omega)
    have hk1 : (2 : ℚ) ^ (53 : ℕ) ≤ k := by
      have : (2 : ℚ) ^ (53 : ℕ) * 2 ^ t ≤ k * 2 ^ t := le_trans h53 he
      exact le_of_mul_le_mul_right this hp
    have hk2 : (k : ℚ) < 2 ^ (53 : ℕ) := by
      have : k < 2 ^ 53 := lt_of_le_of_lt (le_abs_self k) hk
      exact_mod_cast this
    linarith

theorem RoundsPos.nearest_pos {x : ℚ} {f : Float64} (h : RoundsPos x f) {w : ℚ}
    (hw : Representable w) : |f.toRat - x| ≤ |w - x| := by
  obtain ⟨e, a1, a2, hval, hre, u1, u2, m1, m2⟩ := h.facts
  have hp : (0 : ℚ) < 2 ^ (e - 52) := zpow_pos (by norm_num) _
  have hx : x = x / 2 ^ (e - 52) * 2 ^ (e - 52) := by
    field_simp
  have he : (2 : ℚ) ^ e = 2 ^ 52 * 2 ^ (e - 52) := by
    rw [← zpow_natCast, ← zpow_add₀ (by norm_num : (2 : ℚ) ≠ 0)]
    congr 1
    push_cast
    ring
  have hleft : |f.toRat - x| = |(f.mant : ℚ) - x / 2 ^ (e - 52)| * 2 ^ (e - 52) := by
    rw [hval]
    nth_rewrite 1 [hx]
    rw [← sub_mul, abs_mul, abs_of_pos hp]
  rw [hleft]
  by_cases hc : (2 : ℚ) ^ e ≤ w
  · obtain ⟨j, hj⟩ := hw.multiple hc
    have hright : |w - x| = |(j : ℚ) - x / 2 ^ (e - 52)| * 2 ^ (e - 52) := by
      rw [hj]
      nth_rewrite 1 [hx]
      rw [← sub_mul, abs_mul, abs_of_pos hp]
    rw [hright]
    exact mul_le_mul_of_nonneg_right (hre.nearest_int j) (le_of_lt hp)
  · have hc := not_le.1 hc
    have hn := hre.nearest_int (2 ^ 52)
    have hcast : (((2 ^ 52 : ℤ)) : ℚ) = 2 ^ 52 := by norm_num
    rw [hcast, abs_sub_comm ((2 : ℚ) ^ 52),
      abs_of_nonneg (by linarith : (0 : ℚ) ≤ x / 2 ^ (e - 52) - 2 ^ 52)] at hn
    have h1 : |(f.mant : ℚ) - x / 2 ^ (e - 52)| * 2 ^ (e - 52) ≤
        (x / 2 ^ (e - 52) - 2 ^ 52) * 2 ^ (e - 52) :=
      mul_le_mul_of_nonneg_right hn (le_of_lt hp)
    have h2 : (x / 2 ^ (e - 52) - 2 ^ 52) * 2 ^ (e - 52) = x - 2 ^ e := by
      rw [sub_mul, ← hx, ← he]
    have h3 : x - w ≤ |w - x| := by
      rw [abs_sub_comm]
      exact le_abs_self _
    linarith

theorem RoundsPos.representable_pos {x : ℚ} {f : Float64} (h : RoundsPos x f) :
    Representable f.toRat := by
  obtain ⟨e, a1, a2, hval, hre, u1, u2, m1, m2⟩ := h.facts
  by_cases hm : f.mant = 2 ^ 53
  · refine ⟨2 ^ 52, e - 52 + 1, by norm_num, ?_⟩
    rw [hval, hm, zpow_add_one₀ (by norm_num : (2 : ℚ) ≠ 0)]
    push_cast
    ring
  · refine ⟨f.mant, e - 52, ?_, hval⟩
    rw [abs_lt]
    constructor
    · have : (0 : ℤ) < 2 ^ 52 := by norm_num
      omega
    · omega

/-- The rounding error is at most half a unit in the last place. -/
theorem RoundsPos.error_pos {x : ℚ} {f : Float64} (h : RoundsPos x f) {E : ℤ}
    (hE : x < 2 ^ E) : |f.toRat - x| ≤ 2 ^ (E - 54) := by
  obtain ⟨e, a1, a2, hval, hre, u1, u2, m1, m2⟩ := h.facts
  have hp : (0 : ℚ) < 2 ^ (e - 52) := zpow_pos (by norm_num) _
  have hx : x = x / 2 ^ (e - 52) * 2 ^ (e - 52) := by
    field_simp
  have hleft : |f.toRat - x| = |(f.mant : ℚ) - x / 2 ^ (e - 52)| * 2 ^ (e - 52) := by
    rw [hval]
    nth_rewrite 1 [hx]
    rw [← sub_mul, abs_mul, abs_of_pos hp]
  have heE : e < E := by
    have : (2 : ℚ) ^ e < 2 ^ E := lt_of_le_of_lt a1 hE
    rwa [zpow_lt_zpow_iff_right₀ (by norm_num : (1 : ℚ) < 2)] at this
  have hhalf : (2 : ℚ) ^ (e - 52) = 2 * 2 ^ (e - 53) := by
    rw [show e - 52 = e - 53 + 1 by ring, zpow_add_one₀ (by norm_num : (2 : ℚ) ≠ 0)]
    ring
  have hmono : (2 : ℚ) ^ (e - 53) ≤ 2 ^ (E - 54) :=
    zpow_le_zpow_right₀ (by norm_num) (by omega)
  rw [hleft]
  have h1 : |(f.mant : ℚ) - x / 2 ^ (e - 52)| * 2 ^ (e - 52) ≤ 1 / 2 * 2 ^ (e - 52) :=
    mul_le_mul_of_nonneg_right hre.1 (le_of_lt hp)
  rw [hhalf] at h1
  have hq : (0 : ℚ) < 2 ^ (e - 53) := zpow_pos (by norm_num) _
  rw [hhalf]
  linarith

theorem Representable.neg {w : ℚ} (hw : Representable w) : Representable (-w) := by
  obtain ⟨k, t, hk, rfl⟩ := hw
  refine ⟨-k, t, by rwa [abs_neg], ?_⟩
  push_cast
  ring

theorem Representable.intCast (j : ℤ) (hj : |j| < 2 ^ 53) : Representable (j : ℚ) :=
  ⟨j, 0, hj, by simp⟩

theorem Representable.zero : Representable 0 :=
  ⟨0, 0, by norm_num, by simp⟩

theorem Float64.toRat_neg (m e : ℤ) :
    (Float64.mk (-m) e).toRat = -(Float64.mk m e).toRat := by
  unfold Float64.toRat
  push_cast
  ring

theorem Rounds.nearest {x : ℚ} {f : Float64} (h : Rounds x f) {w : ℚ}
    (hw : Representable w) : |f.toRat - x| ≤ |w - x| := by
  rcases h with ⟨hx, hf⟩ | ⟨_, hf⟩ | ⟨_, hf⟩
  · subst hx
    subst hf
    simp [Float64.toRat]
  · exact hf.nearest_pos hw
  · have := hf.nearest_pos hw.neg
    rw [Float64.toRat_neg] at this
    have e1 : -(Float64.mk f.mant f.exp).toRat - -x = -(f.toRat - x) := by
      ring
    have e2 : -w - -x = -(w - x) := by ring
    rwa [e1, e2, abs_neg, abs_neg] at this

theorem Rounds.representable {x : ℚ} {f : Float64} (h : Rounds x f) :
    Representable f.toRat := by
  rcases h with ⟨_, hf⟩ | ⟨_, hf⟩ | ⟨_, hf⟩
  · subst hf
    simpa [Float64.toRat] using Representable.zero
  · exact hf.representable_pos
  · have := hf.representable_pos.neg
    rwa [Float64.toRat_neg, neg_neg] at this

theorem Rounds.unique {x : ℚ} {f f1 : Float64} (h : Rounds x f) (h1 : Rounds x f1) :
    f = f1 := by
  rcases h with ⟨hx, hf⟩ | ⟨hx, hf⟩ | ⟨hx, hf⟩ <;>
    rcases h1 with ⟨hx1, hf1⟩ | ⟨hx1, hf1⟩ | ⟨hx1, hf1⟩
  · rw [hf, hf1]
  · exact absurd hx (ne_of_gt hx1)
  · exact absurd hx (ne_of_lt hx1)
  · exact absurd hx1 (ne_of_gt hx)
  · exact hf.unique_pos hf1
  · exact absurd hx (not_lt.2 (le_of_lt hx1))
  · exact absurd hx1 (ne_of_lt hx)
  · exact absurd hx (not_lt.2 (le_of_lt hx1))
  · have := hf.unique_pos hf1
    simp only [Float64.mk.injEq, neg_inj] at this
    cases f
    cases f1
    simp only [Float64.mk.injEq]
    exact this

/-- Rounding never crosses a representable number below the argument. -/
theorem Rounds.lower {x : ℚ} {f : Float64} (h : Rounds x f) {w : ℚ}
    (hw : Representable w) (hle : w ≤ x) : w ≤ f.toRat := by
  by_contra hc
  have hc := not_le.1 hc
  have := h.nearest hw
  rw [abs_sub_comm, abs_of_nonneg (by linarith), abs_sub_comm, abs_of_nonneg (by linarith)] at this
  linarith

/-- Rounding never crosses a representable number above the argument. -/
theorem Rounds.upper {x : ℚ} {f : Float64} (h : Rounds x f) {w : ℚ}
    (hw : Representable w) (hle : x ≤ w) : f.toRat ≤ w := by
  by_contra hc
  have hc := not_le.1 hc
  have := h.nearest hw
  rw [abs_of_nonneg (by linarith), abs_of_nonneg (by linarith)] at this
  linarith

/-- A representable number is rounded to itself. -/
theorem Rounds.exact {x : ℚ} {f : Float64} (h : Rounds x f) (hx : Representable x) :
    f.toRat = x :=
  le_antisymm (h.upper hx (le_refl x)) (h.lower hx (le_refl x))

/-- Rounding is monotone. -/
theorem Rounds.mono {x x1 : ℚ} {f f1 : Float64} (h : Rounds x f) (h1 : Rounds x1 f1)
    (hle : x ≤ x1) : f.toRat ≤ f1.toRat := by
  by_contra hc
  have hc := not_le.1 hc
  have a1 : f1.toRat < x := by
    by_contra hn
    exact absurd (h.upper h1.representable (not_lt.1 hn)) (not_le.2 hc)
  have a2 : x1 < f.toRat := by
    by_contra hn
    exact absurd (h1.lower h.representable (not_lt.1 hn)) (not_le.2 hc)
  have n1 := h.nearest h1.representable
  have n2 := h1.nearest h.representable
  rw [abs_of_nonneg (by linarith), abs_sub_comm, abs_of_nonneg (by linarith)] at n1
  rw [abs_sub_comm, abs_of_nonneg (by linarith), abs_of_nonneg (by linarith)] at n2
  have hxx : x = x1 := by linarith
  subst hxx
  have := h.unique h1
  subst this
  exact lt_irrefl _ hc

theorem round64_spec (num : ℤ) (den : ℕ) (hden : 0 < den) :
    Rounds ((num : ℚ) / den) (round64 num den) := by
  have hdq : (0 : ℚ) < den := by exact_mod_cast hden
  unfold round64
  by_cases h0 : num = 0
  · left
    simp [h0]
  · simp only [h0, if_false]
    by_cases hpos : 0 < num
    · right
      left
      simp only [hpos, if_true]
      have hnq : (0 : ℚ) < num := by exact_mod_cast hpos
      refine ⟨div_pos hnq hdq, ?_⟩
      have := roundPos_spec num.toNat den (by omega) hden
      have hc : ((num.toNat : ℕ) : ℚ) = (num : ℚ) := by
        have : ((num.toNat : ℕ) : ℤ) = num := Int.toNat_of_nonneg (le_of_lt hpos)
        exact_mod_cast this
      rwa [hc] at this
    · right
      right
      simp only [hpos, if_false]
      have hneg : num < 0 := by omega
      have hnq : (num : ℚ) < 0 := by exact_mod_cast hneg
      refine ⟨div_neg_of_neg_of_pos hnq hdq, ?_⟩
      have := roundPos_spec (-num).toNat den (by omega) hden
      have hc : (((-num).toNat : ℕ) : ℚ) = -(num : ℚ) := by
        have : (((-num).toNat : ℕ) : ℤ) = -num := Int.toNat_of_nonneg (by omega)
        exact_mod_cast this
      rw [hc, neg_div] at this
      simpa using this

theorem Float64.ofInt_spec (x : ℤ) : Rounds (x : ℚ) (Float64.ofInt x) := by
  have := round64_spec x 1 (by norm_num)
  simpa [Float64.ofInt] using this

theorem Float64.add_spec (x y : Float64) : Rounds (x.toRat + y.toRat) (x.add y) := by
  have h2 : (2 : ℚ) ≠ 0 := by norm_num
  have hs := round64_spec
    ((x.mant * 2 ^ (x.exp - min x.exp y.exp).toNat
      + y.mant * 2 ^ (y.exp - min x.exp y.exp).toNat) * 2 ^ (min x.exp y.exp).toNat)
    (2 ^ (-(min x.exp y.exp)).toNat) (by positivity)
  have hval : ((((x.mant * 2 ^ (x.exp - min x.exp y.exp).toNat
      + y.mant * 2 ^ (y.exp - min x.exp y.exp).toNat) * 2 ^ (min x.exp y.exp).toNat : ℤ) : ℚ)
      / ((2 ^ (-(min x.exp y.exp)).toNat : ℕ) : ℚ)) = x.toRat + y.toRat := by
    set t := min x.exp y.exp with ht
    have hx : (((x.exp - t).toNat : ℕ) : ℤ) = x.exp - t :=
      Int.toNat_of_nonneg (by have := min_le_left x.exp y.exp; omega)
    have hy : (((y.exp - t).toNat : ℕ) : ℤ) = y.exp - t :=
      Int.toNat_of_nonneg (by have := min_le_right x.exp y.exp; omega)
    have ex : (2 : ℚ) ^ x.exp = 2 ^ (x.exp - t).toNat * 2 ^ t := by
      rw [← zpow_natCast, hx, ← zpow_add₀ h2, sub_add_cancel]
    have ey : (2 : ℚ) ^ y.exp = 2 ^ (y.exp - t).toNat * 2 ^ t := by
      rw [← zpow_natCast, hy, ← zpow_add₀ h2, sub_add_cancel]
    unfold Float64.toRat
    rw [ex, ey, ← two_pow_toNat_ratio t]
    push_cast
    ring
  rw [hval] at hs
  exact hs

theorem Float64.div_spec (x y : Float64) (hy : y.mant ≠ 0) :
    Rounds (x.toRat / y.toRat) (x.div y) := by
  have h2 : (2 : ℚ) ≠ 0 := by norm_num
  have hnat : 0 < y.mant.natAbs := Int.natAbs_pos.2 hy
  have hs := round64_spec (x.mant * Int.sign y.mant * 2 ^ (x.exp - y.exp).toNat)
    (y.mant.natAbs * 2 ^ (-(x.exp - y.exp)).toNat) (by positivity)
  have hyq : (y.mant : ℚ) ≠ 0 := by exact_mod_cast hy
  have hsign : ((Int.sign y.mant : ℤ) : ℚ) * y.mant = (y.mant.natAbs : ℚ) := by
    have : Int.sign y.mant * y.mant = (y.mant.natAbs : ℤ) := by
      rcases lt_or_gt_of_ne hy with hlt | hgt
      · rw [Int.sign_eq_neg_one_of_neg hlt, Int.ofNat_natAbs_of_nonpos (le_of_lt hlt)]
        ring
      · rw [Int.sign_eq_one_of_pos hgt, Int.natAbs_of_nonneg (le_of_lt hgt)]
        ring
    rw [← Int.cast_mul, this, Int.cast_natCast]
  have hsg : ((Int.sign y.mant : ℤ) : ℚ) ≠ 0 := by
    intro h0
    rw [h0, zero_mul] at hsign
    have : (y.mant.natAbs : ℚ) ≠ 0 := by exact_mod_cast (ne_of_gt hnat)
    exact this hsign.symm
  have hval : (((x.mant * Int.sign y.mant * 2 ^ (x.exp - y.exp).toNat : ℤ) : ℚ)
      / ((y.mant.natAbs * 2 ^ (-(x.exp - y.exp)).toNat : ℕ) : ℚ)) = x.toRat / y.toRat := by
    have hnq : (y.mant.natAbs : ℚ) ≠ 0 := by exact_mod_cast (ne_of_gt hnat)
    have hg : (2 : ℚ) ^ x.exp = 2 ^ (x.exp - y.exp) * 2 ^ y.exp := by
      rw [← zpow_add₀ h2, sub_add_cancel]
    have hp : (2 : ℚ) ^ y.exp ≠ 0 := zpow_ne_zero _ h2
    have hq : ((2 : ℚ) ^ (-(x.exp - y.exp)).toNat) ≠ 0 := pow_ne_zero _ h2
    unfold Float64.toRat
    rw [hg, ← two_pow_toNat_ratio (x.exp - y.exp)]
    push_cast
    rw [← hsign]
    field_simp
    ring
  rw [hval] at hs
  exact hs

/-- For a float that is not negative, `toInt` is the floor. -/
theorem Float64.toInt_floor (f : Float64) (h : 0 ≤ f.toRat) :
    (f.toInt : ℚ) ≤ f.toRat ∧ f.toRat < f.toInt + 1 := by
  have h2 : (2 : ℚ) ≠ 0 := by norm_num
  have hB : (0 : ℤ) < 2 ^ (-f.exp).toNat := by positivity
  have hBq : (0 : ℚ) < 2 ^ (-f.exp).toNat := by positivity
  have hp : (0 : ℚ) < 2 ^ f.exp := zpow_pos (by norm_num) _
  have hm : 0 ≤ f.mant := by
    unfold Float64.toRat at h
    have : (0 : ℚ) ≤ f.mant := by
      by_contra hc
      have hc := not_le.1 hc
      have := mul_neg_of_neg_of_pos hc hp
      linarith
    exact_mod_cast this
  have hA : (0 : ℤ) ≤ f.mant * 2 ^ f.exp.toNat := by positivity
  have hval : f.toRat = ((f.mant * 2 ^ f.exp.toNat : ℤ) : ℚ) / ((2 ^ (-f.exp).toNat : ℤ) : ℚ) := by
    unfold Float64.toRat
    rw [← two_pow_toNat_ratio f.exp]
    push_cast
    ring
  have htd : f.toInt = (f.mant * 2 ^ f.exp.toNat) / 2 ^ (-f.exp).toNat := by
    unfold Float64.toInt
    exact Int.tdiv_eq_ediv hA (le_of_lt hB)
  have l1 := Int.ediv_mul_le (f.mant * 2 ^ f.exp.toNat) (ne_of_gt hB)
  have l2 := Int.lt_ediv_add_one_mul_self (f.mant * 2 ^ f.exp.toNat) hB
  rw [← htd] at l1 l2
  have q1 : (f.toInt : ℚ) * ((2 ^ (-f.exp).toNat : ℤ) : ℚ)
      ≤ ((f.mant * 2 ^ f.exp.toNat : ℤ) : ℚ) := by exact_mod_cast l1
  have q2 : ((f.mant * 2 ^ f.exp.toNat : ℤ) : ℚ)
      < ((f.toInt : ℚ) + 1) * ((2 ^ (-f.exp).toNat : ℤ) : ℚ) := by exact_mod_cast l2
  have hBq1 : (0 : ℚ) < ((2 ^ (-f.exp).toNat : ℤ) : ℚ) := by exact_mod_cast hB
  rw [hval]
  constructor
  · rw [le_div_iff₀ hBq1]
    exact q1
  · rw [div_lt_iff₀ hBq1]
    exact q2

/-- For a float that is not positive, `toInt` is not positive. -/
theorem Float64.toInt_nonpos (f : Float64) (h : f.toRat ≤ 0) : f.toInt ≤ 0 := by
  have hp : (0 : ℚ) < 2 ^ f.exp := zpow_pos (by norm_num) _
  have hm : f.mant ≤ 0 := by
    unfold Float64.toRat at h
    have : (f.mant : ℚ) ≤ 0 := by
      by_contra hc
      have hc := not_le.1 hc
      have := mul_pos hc hp
      linarith
    exact_mod_cast this
  have hB : (0 : ℤ) ≤ 2 ^ (-f.exp).toNat := by positivity
  have hA : (0 : ℤ) ≤ -(f.mant * 2 ^ f.exp.toNat) := by
    have : (0 : ℤ) ≤ (-f.mant) * 2 ^ f.exp.toNat := by
      have : (0 : ℤ) ≤ -f.mant := by omega
      positivity
    linarith
  have := Int.tdiv_nonneg hA hB
  rw [Int.neg_tdiv] at this
  unfold Float64.toInt
  omega

/-- The truncation is determined by the unit interval that holds the float. -/
theorem Float64.toInt_eq (f : Float64) (k : ℤ) (h1 : (k : ℚ) ≤ f.toRat)
    (h2 : f.toRat < k + 1) (hk : 0 ≤ k) : f.toInt = k := by
  have hk0 : (0 : ℚ) ≤ k := by exact_mod_cast hk
  obtain ⟨a, b⟩ := f.toInt_floor (le_trans hk0 h1)
  have c1 : (f.toInt : ℚ) < k + 1 := lt_of_le_of_lt a h2
  have c2 : (k : ℚ) < f.toInt + 1 := lt_of_le_of_lt h1 b
  have d1 : f.toInt < k + 1 := by exact_mod_cast c1
  have d2 : k < f.toInt + 1 := by exact_mod_cast c2
  omega

theorem Rounds.error {x : ℚ} {f : Float64} (h : Rounds x f) (h0 : 0 ≤ x) {E : ℤ}
    (hE : x < 2 ^ E) : |f.toRat - x| ≤ 2 ^ (E - 54) := by
  rcases h with ⟨hx, hf⟩ | ⟨_, hf⟩ | ⟨hx, _⟩
  · subst hx
    subst hf
    have : (0 : ℚ) < 2 ^ (E - 54) := zpow_pos (by norm_num) _
    simpa [Float64.toRat] using le_of_lt this
  · exact hf.error_pos hE
  · exact absurd hx (not_lt.2 h0)

theorem tdiv_tmod_nonpos (d : ℤ) (h : d ≤ 0) :
    Int.tdiv d 1000000000 ≤ 0 ∧ Int.tmod d 1000000000 ≤ 0 := by
  have h1 : Int.tdiv d 1000000000 = -(Int.tdiv (-d) 1000000000) := by
    rw [Int.neg_tdiv, neg_neg]
  have h2 : 0 ≤ Int.tdiv (-d) 1000000000 := Int.tdiv_nonneg (by omega) (by norm_num)
  have h3 : 0 ≤ Int.tmod (-d) 1000000000 := Int.tmod_nonneg _ (by omega)
  have h4 := Int.tmod_def d 1000000000
  have h5 := Int.tmod_def (-d) 1000000000
  constructor <;> omega

theorem tdiv_tmod_nonneg (d : ℤ) (h : 0 ≤ d) :
    Int.tdiv d 1000000000 = d / 1000000000 ∧ Int.tmod d 1000000000 = d % 1000000000 :=
  ⟨Int.tdiv_eq_ediv h (by norm_num), Int.tmod_eq_emod h (by norm_num)⟩

theorem ofInt_billion : Float64.ofInt 1000000000 = ⟨8388608000000000, -23⟩ := by
  decide

theorem ofInt_billion_toRat : (Float64.ofInt 1000000000).toRat = 1000000000 := by
  rw [ofInt_billion]
  unfold Float64.toRat
  norm_num

/-- The two roundings inside `Duration.Seconds`: the fraction `nsec / 1e9` first, then the
sum with the whole seconds. -/
theorem Seconds_rounds (d : ℤ) (hs : |Int.tdiv d 1000000000| < 2 ^ 53) :
    ∃ y : Float64, Rounds ((Int.tmod d 1000000000 : ℚ) / 1000000000) y ∧
      Rounds ((Int.tdiv d 1000000000 : ℚ) + y.toRat) (Duration.Seconds d) := by
  have hn : |Int.tmod d 1000000000| < 2 ^ 53 := by
    have h4 := Int.tmod_def d 1000000000
    rw [abs_lt]
    rcases le_total 0 d with h | h
    · have := Int.tmod_nonneg 1000000000 h
      have := Int.tmod_lt_of_pos d (by norm_num : (0 : ℤ) < 1000000000)
      constructor <;> omega
    · have h3 : 0 ≤ Int.tmod (-d) 1000000000 := Int.tmod_nonneg _ (by omega)
      have h6 := Int.tmod_lt_of_pos (-d) (by norm_num : (0 : ℤ) < 1000000000)
      have h5 := Int.tmod_def (-d) 1000000000
      have h1 : Int.tdiv d 1000000000 = -(Int.tdiv (-d) 1000000000) := by
        rw [Int.neg_tdiv, neg_neg]
      constructor <;> omega
  have e1 := (Float64.ofInt_spec (Int.tdiv d 1000000000)).exact (Representable.intCast _ hs)
  have e2 := (Float64.ofInt_spec (Int.tmod d 1000000000)).exact (Representable.intCast _ hn)
  have hb : (Float64.ofInt 1000000000).mant ≠ 0 := by
    rw [ofInt_billion]
    decide
  have hd := Float64.div_spec (Float64.ofInt (Int.tmod d 1000000000))
    (Float64.ofInt 1000000000) hb
  rw [e2, ofInt_billion_toRat] at hd
  have ha := Float64.add_spec (Float64.ofInt (Int.tdiv d 1000000000))
    ((Float64.ofInt (Int.tmod d 1000000000)).div (Float64.ofInt 1000000000))
  rw [e1] at ha
  exact ⟨_, hd, ha⟩

/-- A duration that is not positive gives a truncated number of seconds that is not positive. -/
theorem Seconds_toInt_nonpos (d : ℤ) (h : d ≤ 0) (hmin : -2 ^ 63 ≤ d) :
    (Duration.Seconds d).toInt ≤ 0 := by
  obtain ⟨hs, hn⟩ := tdiv_tmod_nonpos d h
  have hsb : |Int.tdiv d 1000000000| < 2 ^ 53 := by
    have h1 : Int.tdiv d 1000000000 = -(Int.tdiv (-d) 1000000000) := by
      rw [Int.neg_tdiv, neg_neg]
    have h5 := Int.tmod_def (-d) 1000000000
    have h3 : 0 ≤ Int.tmod (-d) 1000000000 := Int.tmod_nonneg _ (by omega)
    have h63 : (2 : ℤ) ^ 63 = 9223372036854775808 := by norm_num
    have h53 : (2 : ℤ) ^ 53 = 9007199254740992 := by norm_num
    rw [h63] at hmin
    rw [abs_lt, h53]
    constructor <;> omega
  obtain ⟨y, hy, hF⟩ := Seconds_rounds d hsb
  have hnq : (Int.tmod d 1000000000 : ℚ) / 1000000000 ≤ 0 := by
    have : (Int.tmod d 1000000000 : ℚ) ≤ 0 := by exact_mod_cast hn
    exact div_nonpos_of_nonpos_of_nonneg this (by norm_num)
  have hy0 : y.toRat ≤ 0 := hy.upper Representable.zero hnq
  have hsq : (Int.tdiv d 1000000000 : ℚ) ≤ 0 := by exact_mod_cast hs
  have hF0 : (Duration.Seconds d).toRat ≤ 0 := hF.upper Representable.zero (by linarith)
  exact Float64.toInt_nonpos _ hF0

/-- For a duration that is not negative the float of `Duration.Seconds` lies between the
whole seconds and the next whole second. -/
theorem Seconds_bounds (d : ℤ) (h : 0 ≤ d) (hmax : d ≤ 2 ^ 63 - 1) :
    ((d / 1000000000 : ℤ) : ℚ) ≤ (Duration.Seconds d).toRat ∧
    (Duration.Seconds d).toRat ≤ ((d / 1000000000 : ℤ) : ℚ) + 1 := by
  obtain ⟨hs, hn⟩ := tdiv_tmod_nonneg d h
  have h63 : (2 : ℤ) ^ 63 = 9223372036854775808 := by norm_num
  have h53 : (2 : ℤ) ^ 53 = 9007199254740992 := by norm_num
  rw [h63] at hmax
  have hsb : |Int.tdiv d 1000000000| < 2 ^ 53 := by
    rw [hs, abs_lt, h53]
    constructor <;> omega
  obtain ⟨y, hy, hF⟩ := Seconds_rounds d hsb
  rw [hs] at hF
  rw [hn] at hy
  have hm0 : (0 : ℤ) ≤ d % 1000000000 := Int.emod_nonneg _ (by norm_num)
  have hm1 : d % 1000000000 < 1000000000 := Int.emod_lt_of_pos _ (by norm_num)
  have q0 : (0 : ℚ) ≤ ((d % 1000000000 : ℤ) : ℚ) / 1000000000 := by
    have : (0 : ℚ) ≤ ((d % 1000000000 : ℤ) : ℚ) := by exact_mod_cast hm0
    positivity
  have q1 : ((d % 1000000000 : ℤ) : ℚ) / 1000000000 ≤ 1 := by
    rw [div_le_one (by norm_num)]
    have : ((d % 1000000000 : ℤ) : ℚ) < 1000000000 := by exact_mod_cast hm1
    linarith
  have y0 : 0 ≤ y.toRat := hy.lower Representable.zero q0
  have y1 : y.toRat ≤ 1 := by
    have := hy.upper (Representable.intCast 1 (by norm_num)) (by simpa using q1)
    simpa using this
  have r1 : Representable ((d / 1000000000 : ℤ) : ℚ) :=
    Representable.intCast _ (by rw [abs_lt, h53]; constructor <;> omega)
  have r2 : Representable (((d / 1000000000 + 1 : ℤ)) : ℚ) :=
    Representable.intCast _ (by rw [abs_lt, h53]; constructor <;> omega)
  constructor
  · exact hF.lower r1 (by linarith)
  · have := hF.upper r2 (by push_cast; linarith)
    push_cast at this
    exact this

/-- Truncation of `Duration.Seconds` is the whole number of seconds or one more. -/
theorem Seconds_toInt_range (d : ℤ) (h : 0 ≤ d) (hmax : d ≤ 2 ^ 63 - 1) :
    d / 1000000000 ≤ (Duration.Seconds d).toInt ∧
    (Duration.Seconds d).toInt ≤ d / 1000000000 + 1 := by
  obtain ⟨b1, b2⟩ := Seconds_bounds d h hmax
  have hsec : (0 : ℤ) ≤ d / 1000000000 := Int.ediv_nonneg h (by norm_num)
  have hsq : (0 : ℚ) ≤ ((d / 1000000000 : ℤ) : ℚ) := by exact_mod_cast hsec
  obtain ⟨f1, f2⟩ := (Duration.Seconds d).toInt_floor (le_trans hsq b1)
  have c1 : ((d / 1000000000 : ℤ) : ℚ) < (Duration.Seconds d).toInt + 1 := lt_of_le_of_lt b1 f2
  have c2 : ((Duration.Seconds d).toInt : ℚ) ≤ ((d / 1000000000 : ℤ) : ℚ) + 1 := le_trans f1 b2
  have d1 : d / 1000000000 < (Duration.Seconds d).toInt + 1 := by exact_mod_cast c1
  have d2 : (Duration.Seconds d).toInt ≤ d / 1000000000 + 1 := by exact_mod_cast c2
  omega

/-- Below `2 ^ 24` seconds the truncation of `Duration.Seconds` is exactly the whole number
of seconds. -/
theorem Seconds_toInt_exact (d : ℤ) (h : 0 ≤ d) (hlt : d < 16777216 * 1000000000) :
    (Duration.Seconds d).toInt = d / 1000000000 := by
  obtain ⟨hs, hn⟩ := tdiv_tmod_nonneg d h
  have h53 : (2 : ℤ) ^ 53 = 9007199254740992 := by norm_num
  have hsec0 : (0 : ℤ) ≤ d / 1000000000 := Int.ediv_nonneg h (by norm_num)
  have hsec1 : d / 1000000000 < 16777216 := by omega
  have hsb : |Int.tdiv d 1000000000| < 2 ^ 53 := by
    rw [hs, abs_lt, h53]
    constructor <;> omega
  obtain ⟨y, hy, hF⟩ := Seconds_rounds d hsb
  rw [hs] at hF
  rw [hn] at hy
  have hm0 : (0 : ℤ) ≤ d % 1000000000 := Int.emod_nonneg _ (by norm_num)
  have hm1 : d % 1000000000 ≤ 999999999 := by
    have := Int.emod_lt_of_pos d (by norm_num : (0 : ℤ) < 1000000000)
    omega
  have q0 : (0 : ℚ) ≤ ((d % 1000000000 : ℤ) : ℚ) / 1000000000 := by
    have : (0 : ℚ) ≤ ((d % 1000000000 : ℤ) : ℚ) := by exact_mod_cast hm0
    positivity
  have hc : Representable ((1099511626751 : ℤ) * (2 : ℚ) ^ (-40 : ℤ)) :=
    ⟨1099511626751, -40, by norm_num, rfl⟩
  have hcv : ((1099511626751 : ℤ) : ℚ) * (2 : ℚ) ^ (-40 : ℤ) = 1099511626751 / 1099511627776 := by
    norm_num
  rw [hcv] at hc
  have q1 : ((d % 1000000000 : ℤ) : ℚ) / 1000000000 ≤ 1099511626751 / 1099511627776 := by
    have : ((d % 1000000000 : ℤ) : ℚ) ≤ 999999999 := by exact_mod_cast hm1
    rw [div_le_div_iff₀ (by norm_num) (by norm_num)]
    linarith
  have y0 : 0 ≤ y.toRat := hy.lower Representable.zero q0
  have y1 : y.toRat ≤ 1099511626751 / 1099511627776 := hy.upper hc q1
  have sq0 : (0 : ℚ) ≤ ((d / 1000000000 : ℤ) : ℚ) := by exact_mod_cast hsec0
  have sq1 : ((d / 1000000000 : ℤ) : ℚ) ≤ 16777215 := by
    have : d / 1000000000 ≤ 16777215 := by omega
    exact_mod_cast this
  have r1 : Representable ((d / 1000000000 : ℤ) : ℚ) :=
    Representable.intCast _ (by rw [abs_lt, h53]; constructor <;> omega)
  have lo : ((d / 1000000000 : ℤ) : ℚ) ≤ (Duration.Seconds d).toRat :=
    hF.lower r1 (by linarith)
  have hE : ((d / 1000000000 : ℤ) : ℚ) + y.toRat < (2 : ℚ) ^ (24 : ℤ) := by
    norm_num
    linarith
  have herr := hF.error (by linarith) hE
  have hv : (2 : ℚ) ^ ((24 : ℤ) - 54) = 1 / 1073741824 := by norm_num
  rw [hv, abs_le] at herr
  have hi : (Duration.Seconds d).toRat < ((d / 1000000000 : ℤ) : ℚ) + 1 := by
    have := herr.2
    linarith
  exact Float64.toInt_eq _ _ lo hi hsec0

/-- The float of `Duration.Seconds` grows with the duration. -/
theorem Seconds_mono (d1 d2 : ℤ) (h0 : 0 ≤ d1) (h12 : d1 ≤ d2) (hmax : d2 ≤ 2 ^ 63 - 1) :
    (Duration.Seconds d1).toRat ≤ (Duration.Seconds d2).toRat := by
  have h53 : (2 : ℤ) ^ 53 = 9007199254740992 := by norm_num
  have h63 : (2 : ℤ) ^ 63 = 9223372036854775808 := by norm_num
  by_cases hsec : d1 / 1000000000 = d2 / 1000000000
  · obtain ⟨hs1, hn1⟩ := tdiv_tmod_nonneg d1 h0
    obtain ⟨hs2, hn2⟩ := tdiv_tmod_nonneg d2 (le_trans h0 h12)
    have hsb1 : |Int.tdiv d1 1000000000| < 2 ^ 53 := by
      rw [hs1, abs_lt, h53]
      rw [h63] at hmax
      constructor <;> omega
    have hsb2 : |Int.tdiv d2 1000000000| < 2 ^ 53 := by
      rw [hs2, abs_lt, h53]
      rw [h63] at hmax
      constructor <;> omega
    obtain ⟨y1, hy1, hF1⟩ := Seconds_rounds d1 hsb1
    obtain ⟨y2, hy2, hF2⟩ := Seconds_rounds d2 hsb2
    rw [hs1] at hF1
    rw [hs2, ← hsec] at hF2
    rw [hn1] at hy1
    rw [hn2] at hy2
    have hmod : d1 % 1000000000 ≤ d2 % 1000000000 := by omega
    have hq : ((d1 % 1000000000 : ℤ) : ℚ) / 1000000000
        ≤ ((d2 % 1000000000 : ℤ) : ℚ) / 1000000000 := by
      have : ((d1 % 1000000000 : ℤ) : ℚ) ≤ ((d2 % 1000000000 : ℤ) : ℚ) := by
        exact_mod_cast hmod
      exact div_le_div_of_nonneg_right this (by norm_num)
    have hy := hy1.mono hy2 hq
    exact hF1.mono hF2 (by linarith)
  · have hlt : d1 / 1000000000 + 1 ≤ d2 / 1000000000 := by omega
    have b1 := (Seconds_bounds d1 h0 (le_trans h12 hmax)).2
    have b2 := (Seconds_bounds d2 (le_trans h0 h12) hmax).1
    have : ((d1 / 1000000000 : ℤ) : ℚ) + 1 ≤ ((d2 / 1000000000 : ℤ) : ℚ) := by
      exact_mod_cast hlt
    linarith

/-- The truncated number of seconds grows with the duration. -/
theorem Seconds_toInt_mono (d1 d2 : ℤ) (h0 : 0 ≤ d1) (h12 : d1 ≤ d2) (hmax : d2 ≤ 2 ^ 63 - 1) :
    (Duration.Seconds d1).toInt ≤ (Duration.Seconds d2).toInt := by
  have hm := Seconds_mono d1 d2 h0 h12 hmax
  have b1 := (Seconds_bounds d1 h0 (le_trans h12 hmax)).1
  have hsec : (0 : ℤ) ≤ d1 / 1000000000 := Int.ediv_nonneg h0 (by norm_num)
  have hsq : (0 : ℚ) ≤ ((d1 / 1000000000 : ℤ) : ℚ) := by exact_mod_cast hsec
  have p1 : (0 : ℚ) ≤ (Duration.Seconds d1).toRat := le_trans hsq b1
  obtain ⟨f1, _⟩ := (Duration.Seconds d1).toInt_floor p1
  obtain ⟨_, g2⟩ := (Duration.Seconds d2).toInt_floor (le_trans p1 hm)
  have : ((Duration.Seconds d1).toInt : ℚ) < (Duration.Seconds d2).toInt + 1 := by linarith
  have : (Duration.Seconds d1).toInt < (Duration.Seconds d2).toInt + 1 := by exact_mod_cast this
  omega

/-! ## Remaining time -/

theorem Time.Sub_range (t u : ℤ) :
    -9223372036854775808 ≤ Time.Sub t u ∧ Time.Sub t u ≤ 9223372036854775807 := by
  have h63 : (2 : ℤ) ^ 63 = 9223372036854775808 := by norm_num
  unfold Time.Sub maxDuration minDuration
  rw [h63]
  split_ifs <;> constructor <;> omega

theorem Time.Sub_eq (t u : ℤ) (h1 : -9223372036854775808 ≤ t - u)
    (h2 : t - u ≤ 9223372036854775807) : Time.Sub t u = t - u := by
  have h63 : (2 : ℤ) ^ 63 = 9223372036854775808 := by norm_num
  unfold Time.Sub maxDuration minDuration
  rw [h63]
  split_ifs <;> omega

theorem Time.Sub_antitone (t u1 u2 : ℤ) (h : u1 ≤ u2) : Time.Sub t u2 ≤ Time.Sub t u1 := by
  have h63 : (2 : ℤ) ^ 63 = 9223372036854775808 := by norm_num
  unfold Time.Sub maxDuration minDuration
  rw [h63]
  split_ifs <;> omega

theorem Time.Sub_nonpos (t u : ℤ) (h : t ≤ u) : Time.Sub t u ≤ 0 := by
  have h63 : (2 : ℤ) ^ 63 = 9223372036854775808 := by norm_num
  unfold Time.Sub maxDuration minDuration
  rw [h63]
  split_ifs <;> omega

theorem getRemainingTime_running (now : ℤ) (w : World) (h : w.isRunning = true) :
    getRemainingTime now w =
      if (Duration.Seconds (Time.Sub w.endTime now)).toInt < 0 then 0
      else (Duration.Seconds (Time.Sub w.endTime now)).toInt := by
  simp [getRemainingTime, h]

theorem getRemainingTime_nonneg (now : ℤ) (w : World) : 0 ≤ getRemainingTime now w := by
  unfold getRemainingTime
  dsimp only
  split_ifs <;> omega

theorem getRemainingTime_of_nonpos (now : ℤ) (w : World)
    (h : Time.Sub w.endTime now ≤ 0) : getRemainingTime now w = 0 := by
  have h63 : (2 : ℤ) ^ 63 = 9223372036854775808 := by norm_num
  have hr := (Time.Sub_range w.endTime now).1
  have := Seconds_toInt_nonpos (Time.Sub w.endTime now) h (by rw [h63]; exact hr)
  unfold getRemainingTime
  dsimp only
  split_ifs <;> omega

/-- C5 (as stated) fails: arm at clock reading 0 with a limit of 16777217 seconds and ask one
nanosecond later. 16777216.999999999 seconds are left; `Duration.Seconds` adds
`float64(16777216)` and `float64(999999999)/1e9`, and the float64 sum rounds up to 16777217,
so `getRemainingTime` returns 16777217, not the whole number of seconds 16777216. -/
theorem C5_counterexample :
    (startCountdown (Config.mk [] [] 16777217) 0 (World.init [])).isRunning = true ∧
    (startCountdown (Config.mk [] [] 16777217) 0 (World.init [])).endTime
      = 16777217000000000 ∧
    getRemainingTime 1 (startCountdown (Config.mk [] [] 16777217) 0 (World.init []))
      = 16777217 ∧
    max 0 ((startCountdown (Config.mk [] [] 16777217) 0 (World.init [])).endTime - 1)
      / 1000000000 = (16777216 : Int) := by
  decide

/-- C5 (amended): `getRemainingTime` returns 0 when not running; when running with less
than `2 ^ 24` seconds left it returns `max(0, endTime - now)` in whole seconds, rounded down;
when running it always returns the whole seconds of the difference `endTime.Sub(now)`,
floored at 0, or one more; it is never negative and is 0 whenever `now ≥ endTime`. -/
theorem C5_getRemainingTime (now : Int) (w : World) :
    (w.isRunning = false → getRemainingTime now w = 0) ∧
    (w.isRunning = true → w.endTime - now < 16777216 * 1000000000 →
      getRemainingTime now w = max 0 (w.endTime - now) / 1000000000) ∧
    (w.isRunning = true →
      max 0 (Time.Sub w.endTime now) / 1000000000 ≤ getRemainingTime now w ∧
      getRemainingTime now w ≤ max 0 (Time.Sub w.endTime now) / 1000000000 + 1) ∧
    0 ≤ getRemainingTime now w ∧
    (w.endTime ≤ now → getRemainingTime now w = 0) := by
  have h63 : (2 : ℤ) ^ 63 = 9223372036854775808 := by norm_num
  refine ⟨?_, ?_, ?_, getRemainingTime_nonneg now w, ?_⟩
  · intro h
    simp [getRemainingTime, h]
  · intro hrun hlt
    rcases le_or_lt (w.endTime - now) 0 with hle | hpos
    · have hs : Time.Sub w.endTime now ≤ 0 := Time.Sub_nonpos _ _ (by omega)
      rw [getRemainingTime_of_nonpos now w hs, max_eq_left hle]
      rfl
    · have hs : Time.Sub w.endTime now = w.endTime - now :=
        Time.Sub_eq _ _ (by omega) (by omega)
      have hx := Seconds_toInt_exact (w.endTime - now) (le_of_lt hpos) hlt
      have h0 : (0 : ℤ) ≤ (w.endTime - now) / 1000000000 :=
        Int.ediv_nonneg (le_of_lt hpos) (by norm_num)
      rw [getRemainingTime_running now w hrun, hs, hx, max_eq_right (le_of_lt hpos)]
      split_ifs <;> omega
  · intro hrun
    obtain ⟨r1, r2⟩ := Time.Sub_range w.endTime now
    rcases le_or_lt (Time.Sub w.endTime now) 0 with hle | hpos
    · rw [getRemainingTime_of_nonpos now w hle, max_eq_left hle]
      constructor <;> decide
    · obtain ⟨a, b⟩ := Seconds_toInt_range (Time.Sub w.endTime now) (le_of_lt hpos)
        (by rw [h63]; omega)
      have h0 : (0 : ℤ) ≤ Time.Sub w.endTime now / 1000000000 :=
        Int.ediv_nonneg (le_of_lt hpos) (by norm_num)
      rw [getRemainingTime_running now w hrun, max_eq_right (le_of_lt hpos)]
      split_ifs <;> constructor <;> omega
  · intro hle
    exact getRemainingTime_of_nonpos now w (Time.Sub_nonpos _ _ hle)

/-- C5 (amended), at a world armed until clock reading 10 s and asked at 2.5 s and at 11 s. -/
theorem C5_getRemainingTime_witness :
    getRemainingTime 2500000000 (World.mk 10000000000 true [] [] []) = 7 ∧
    getRemainingTime 11000000000 (World.mk 10000000000 true [] [] []) = 0 ∧
    getRemainingTime 2500000000 (World.mk 10000000000 false [] [] []) = 0 :=
  ⟨((C5_getRemainingTime 2500000000 (World.mk 10000000000 true [] [] [])).2.1 rfl
      (by decide)).trans (by decide),
    (C5_getRemainingTime 11000000000 (World.mk 10000000000 true [] [] [])).2.2.2.2 (by decide),
    (C5_getRemainingTime 2500000000 (World.mk 10000000000 false [] [] [])).1 rfl⟩

/-- C6: on a running world with a fixed `endTime`, a later clock reading never gives a
larger `getRemainingTime`. -/
theorem C6_getRemainingTime_antitone (w : World) (t1 t2 : Int)
    (_hrun : w.isRunning = true) (h : t1 ≤ t2) :
    getRemainingTime t2 w ≤ getRemainingTime t1 w := by
  have h63 : (2 : ℤ) ^ 63 = 9223372036854775808 := by norm_num
  cases hr : w.isRunning with
  | false => simp [getRemainingTime, hr]
  | true =>
    have hanti := Time.Sub_antitone w.endTime t1 t2 h
    rcases le_or_lt (Time.Sub w.endTime t2) 0 with hle | hpos
    · rw [getRemainingTime_of_nonpos t2 w hle]
      exact getRemainingTime_nonneg t1 w
    · obtain ⟨_, r2⟩ := Time.Sub_range w.endTime t1
      have hm := Seconds_toInt_mono (Time.Sub w.endTime t2) (Time.Sub w.endTime t1)
        (le_of_lt hpos) hanti (by rw [h63]; omega)
      rw [getRemainingTime_running t2 w hr, getRemainingTime_running t1 w hr]
      split_ifs <;> omega

/-- C6, at a world armed until clock reading 10 s, asked at 2.5 s and at 3.5 s. -/
theorem C6_getRemainingTime_antitone_witness :
    (World.mk 10000000000 true [] [] []).isRunning = true ∧
    (2500000000 : Int) ≤ 3500000000 ∧
    getRemainingTime 3500000000 (World.mk 10000000000 true [] [] [])
      ≤ getRemainingTime 2500000000 (World.mk 10000000000 true [] [] []) :=
  ⟨rfl, by decide,
    C6_getRemainingTime_antitone (World.mk 10000000000 true [] [] []) 2500000000 3500000000
      rfl (by decide)⟩

/-! ## Paths, lookups and replacement -/

theorem lookup_cons_self (a : String) (v : Node) (es : Entries) :
    List.lookup a ((a, v) :: es) = some v := by
  simp [List.lookup]

theorem lookup_cons_ne {a k : String} (h : a ≠ k) (v : Node) (es : Entries) :
    List.lookup a ((k, v) :: es) = List.lookup a es := by
  have : (a == k) = false := by simpa using h
  simp [List.lookup, this]

theorem lookup_keepEntry_ne {a name : String} (h : a ≠ name) (x : Option Node) (l : Entries) :
    List.lookup a (keepEntry name x ++ l) = List.lookup a l := by
  cases x with
  | none => rfl
  | some n => exact lookup_cons_ne h n l

theorem lookup_keepEntry_some (name : String) (n : Node) (l : Entries) :
    List.lookup name (keepEntry name (some n) ++ l) = some n :=
  lookup_cons_self name n l

theorem lookup_keepEntry_none (name : String) (l : Entries) :
    List.lookup name (keepEntry name none ++ l) = List.lookup name l := rfl

theorem Node.stat_nil (n : Node) : n.stat [] = some n.info := by
  cases n <;> rfl

theorem Node.stat_file_cons (s r : Bool) (a : String) (q : Path) :
    (Node.file s r).stat (a :: q) = none := rfl

theorem Node.stat_dir_cons (s r : Bool) (es : Entries) (a : String) (q : Path) :
    (Node.dir s r es).stat (a :: q) = statOpt (es.lookup a) q := by
  unfold Node.stat statOpt
  simp only [Node.find]
  cases List.lookup a es <;> rfl

theorem Entries.stat_nil_none (es : Entries) : Entries.stat es [] = none := rfl

theorem Entries.stat_cons (es : Entries) (a : String) (q : Path) :
    Entries.stat es (a :: q) = statOpt (es.lookup a) q := by
  unfold Entries.stat statOpt
  simp only [Entries.find]
  cases List.lookup a es <;> rfl

theorem statOpt_none (q : Path) : statOpt none q = none := rfl

theorem statOpt_some (n : Node) (q : Path) : statOpt (some n) q = n.stat q := rfl

theorem Node.find_append : ∀ (p : Path) (m : Node) (r : Path),
    m.find (p ++ r) = (m.find p).bind fun n => n.find r
  | [], m, r => by cases m <;> rfl
  | a :: p, .file s x, r => rfl
  | a :: p, .dir s x es, r => by
    simp only [List.cons_append, Node.find]
    cases h : List.lookup a es with
    | none => rfl
    | some c => simpa using Node.find_append p c r

theorem Node.stat_append (p : Path) (m n : Node) (r : Path) (h : m.find p = some n) :
    m.stat (p ++ r) = n.stat r := by
  unfold Node.stat
  rw [Node.find_append, h]
  rfl

theorem Entries.find_eq_dir (es : Entries) (a : String) (q : Path) :
    Entries.find es (a :: q) = (Node.dir false false es).find (a :: q) := rfl

theorem Entries.stat_eq_dir (es : Entries) (a : String) (q : Path) :
    Entries.stat es (a :: q) = (Node.dir false false es).stat (a :: q) := rfl

theorem modify_lookup_ne {a name : String} (h : a ≠ name) (f : Node → Option Node) :
    ∀ es : Entries, List.lookup a (Entries.modify name f es) = List.lookup a es
  | [] => rfl
  | (nm, n) :: rest => by
    unfold Entries.modify
    by_cases hn : name = nm
    · subst hn
      simp only [beq_self_eq_true, if_true]
      rw [lookup_keepEntry_ne h, lookup_cons_ne h]
    · have : (name == nm) = false := by simpa using hn
      simp only [this]
      by_cases ha : a = nm
      · subst ha
        simp [lookup_cons_self]
      · simp only [Bool.false_eq_true, if_false]
        rw [lookup_cons_ne ha, lookup_cons_ne ha]
        exact modify_lookup_ne h f rest

theorem modify_lookup_some {name : String} (f : Node → Option Node) {c c1 : Node} :
    ∀ es : Entries, List.lookup name es = some c → f c = some c1 →
      List.lookup name (Entries.modify name f es) = some c1
  | [], h, _ => by simp [List.lookup] at h
  | (nm, n) :: rest, h, hf => by
    unfold Entries.modify
    by_cases hn : name = nm
    · subst hn
      rw [lookup_cons_self] at h
      cases h
      simp only [beq_self_eq_true, if_true, hf]
      exact lookup_keepEntry_some name c1 rest
    · have : (name == nm) = false := by simpa using hn
      simp only [this, Bool.false_eq_true, if_false]
      rw [lookup_cons_ne hn] at h ⊢
      exact modify_lookup_some f rest h hf

theorem wfEntries_cons (name : String) (n : Node) (rest : Entries) :
    wfEntries ((name, n) :: rest) = true ↔
      List.lookup name rest = none ∧ n.wf = true ∧ wfEntries rest = true := by
  rw [wfEntries]
  simp [Bool.and_eq_true, Option.isNone_iff_eq_none, and_assoc]

theorem modify_lookup_none {name : String} (f : Node → Option Node) {c : Node} :
    ∀ es : Entries, wfEntries es = true → List.lookup name es = some c → f c = none →
      List.lookup name (Entries.modify name f es) = none
  | [], _, h, _ => by simp [List.lookup] at h
  | (nm, n) :: rest, hwf, h, hf => by
    obtain ⟨h1, _, h3⟩ := (wfEntries_cons nm n rest).1 hwf
    unfold Entries.modify
    by_cases hn : name = nm
    · subst hn
      rw [lookup_cons_self] at h
      cases h
      simp only [beq_self_eq_true, if_true, hf]
      rw [lookup_keepEntry_none]
      exact h1
    · have : (name == nm) = false := by simpa using hn
      simp only [this, Bool.false_eq_true, if_false]
      rw [lookup_cons_ne hn] at h ⊢
      exact modify_lookup_none f rest h3 h hf

theorem modify_wf {name : String} (f : Node → Option Node) {c : Node} :
    ∀ es : Entries, wfEntries es = true → List.lookup name es = some c →
      (∀ c1, f c = some c1 → c1.wf = true) → wfEntries (Entries.modify name f es) = true
  | [], _, h, _ => by simp [List.lookup] at h
  | (nm, n) :: rest, hwf, h, hf => by
    obtain ⟨h1, h2, h3⟩ := (wfEntries_cons nm n rest).1 hwf
    unfold Entries.modify
    by_cases hn : name = nm
    · subst hn
      rw [lookup_cons_self] at h
      cases h
      simp only [beq_self_eq_true, if_true]
      cases hfc : f c with
      | none => exact h3
      | some c1 =>
        exact (wfEntries_cons name c1 rest).2 ⟨h1, hf c1 hfc, h3⟩
    · have : (name == nm) = false := by simpa using hn
      simp only [this, Bool.false_eq_true, if_false]
      rw [lookup_cons_ne hn] at h
      refine (wfEntries_cons nm n _).2 ⟨?_, h2, modify_wf f rest h3 h hf⟩
      rw [modify_lookup_ne (Ne.symm hn)]
      exact h1

theorem wf_lookup {a : String} {c : Node} :
    ∀ es : Entries, wfEntries es = true → List.lookup a es = some c → c.wf = true
  | [], _, h => by simp [List.lookup] at h
  | (nm, n) :: rest, hwf, h => by
    obtain ⟨_, h2, h3⟩ := (wfEntries_cons nm n rest).1 hwf
    by_cases hn : a = nm
    · subst hn
      rw [lookup_cons_self] at h
      cases h
      exact h2
    · rw [lookup_cons_ne hn] at h
      exact wf_lookup rest h3 h

theorem Node.wf_dir (s x : Bool) (es : Entries) : (Node.dir s x es).wf = wfEntries es := by
  rw [Node.wf]

theorem Node.wf_find : ∀ (p : Path) (m n : Node), m.wf = true → m.find p = some n → n.wf = true
  | [], m, n, hwf, h => by
    cases m <;> simp only [Node.find, Option.some.injEq] at h <;> subst h <;> exact hwf
  | a :: p, .file s x, n, _, h => by simp [Node.find] at h
  | a :: p, .dir s x es, n, hwf, h => by
    rw [Node.wf_dir] at hwf
    simp only [Node.find] at h
    cases hl : List.lookup a es with
    | none => simp [hl] at h
    | some c =>
      rw [hl] at h
      exact Node.wf_find p c n (wf_lookup es hwf hl) h

theorem Node.find_nil (m : Node) : m.find [] = some m := by
  cases m <;> rfl

theorem Node.info_dir (s x : Bool) (es es1 : Entries) :
    (Node.dir s x es).info = (Node.dir s x es1).info := rfl

/-- Directories, and files whose removal fails, survive a replacement that keeps those of
the replaced node. -/
theorem Node.replace_kept_persist (new : Option Node) :
    ∀ (p : Path) (m n : Node), m.find p = some n →
      (∀ r i, n.stat r = some i → i.kept = true → statOpt new r = some i) →
      ∀ q i, m.stat q = some i → i.kept = true → statOpt (Node.replace new p m) q = some i
  | [], m, n, h, hyp, q, i, hq, hi => by
    rw [Node.find_nil] at h
    cases h
    cases m <;> exact hyp q i hq hi
  | a :: p, .file s x, n, h, _, _, _, _, _ => by simp [Node.find] at h
  | a :: p, .dir s x es, n, h, hyp, q, i, hq, hi => by
    simp only [Node.find] at h
    cases hl : List.lookup a es with
    | none => simp [hl] at h
    | some c =>
      rw [hl] at h
      have hc : c.find p = some n := h
      simp only [Node.replace, statOpt_some]
      cases q with
      | nil =>
        rw [Node.stat_nil] at hq ⊢
        rw [← hq]
        rfl
      | cons b q =>
        rw [Node.stat_dir_cons] at hq ⊢
        by_cases hb : b = a
        · subst hb
          rw [hl, statOpt_some] at hq
          have ih := Node.replace_kept_persist new p c n hc hyp q i hq hi
          cases hr : Node.replace new p c with
          | none => rw [hr] at ih; simp [statOpt] at ih
          | some c1 =>
            rw [modify_lookup_some _ es hl hr]
            rw [hr] at ih
            exact ih
        · rw [modify_lookup_ne hb]
          exact hq

/-- With distinct names, whatever is found after a replacement was there before, provided
this holds inside the replaced node. -/
theorem Node.replace_stat_old (new : Option Node) :
    ∀ (p : Path) (m n : Node), m.wf = true → m.find p = some n →
      (∀ r i, statOpt new r = some i → n.stat r = some i) →
      ∀ q i, statOpt (Node.replace new p m) q = some i → m.stat q = some i
  | [], m, n, _, h, hyp, q, i, hq => by
    rw [Node.find_nil] at h
    cases h
    cases m <;> exact hyp q i hq
  | a :: p, .file s x, n, _, h, _, _, _, _ => by simp [Node.find] at h
  | a :: p, .dir s x es, n, hwf, h, hyp, q, i, hq => by
    rw [Node.wf_dir] at hwf
    simp only [Node.find] at h
    cases hl : List.lookup a es with
    | none => simp [hl] at h
    | some c =>
      rw [hl] at h
      have hc : c.find p = some n := h
      simp only [Node.replace, statOpt_some] at hq
      cases q with
      | nil =>
        rw [Node.stat_nil] at hq ⊢
        rw [← hq]
        rfl
      | cons b q =>
        rw [Node.stat_dir_cons] at hq ⊢
        by_cases hb : b = a
        · subst hb
          rw [hl, statOpt_some]
          cases hr : Node.replace new p c with
          | none =>
            rw [modify_lookup_none _ es hwf hl hr] at hq
            simp [statOpt] at hq
          | some c1 =>
            rw [modify_lookup_some _ es hl hr] at hq
            refine Node.replace_stat_old new p c n (wf_lookup es hwf hl) hc hyp q i ?_
            rw [hr]
            exact hq
        · rw [modify_lookup_ne hb] at hq
          exact hq

/-- With distinct names, below the replaced path one finds what the new node holds. -/
theorem Node.replace_stat_under (new : Option Node) (r : Path) :
    ∀ (p : Path) (m n : Node), m.wf = true → m.find p = some n →
      statOpt (Node.replace new p m) (p ++ r) = statOpt new r
  | [], m, n, _, _ => by cases m <;> rfl
  | a :: p, .file s x, n, _, h => by simp [Node.find] at h
  | a :: p, .dir s x es, n, hwf, h => by
    rw [Node.wf_dir] at hwf
    simp only [Node.find] at h
    cases hl : List.lookup a es with
    | none => simp [hl] at h
    | some c =>
      rw [hl] at h
      have hc : c.find p = some n := h
      have ih := Node.replace_stat_under new r p c n (wf_lookup es hwf hl) hc
      simp only [Node.replace, statOpt_some, List.cons_append]
      rw [Node.stat_dir_cons]
      cases hr : Node.replace new p c with
      | none =>
        rw [modify_lookup_none _ es hwf hl hr]
        rw [hr] at ih
        exact ih
      | some c1 =>
        rw [modify_lookup_some _ es hl hr]
        rw [hr] at ih
        exact ih

/-- Names stay distinct after a replacement by a node with distinct names. -/
theorem Node.replace_wf (new : Option Node) (hnew : ∀ n1, new = some n1 → n1.wf = true) :
    ∀ (p : Path) (m n : Node), m.wf = true → m.find p = some n →
      ∀ m1, Node.replace new p m = some m1 → m1.wf = true
  | [], m, n, _, _, m1, h1 => by
    cases m <;> exact hnew m1 h1
  | a :: p, .file s x, n, _, h, _, _ => by simp [Node.find] at h
  | a :: p, .dir s x es, n, hwf, h, m1, h1 => by
    rw [Node.wf_dir] at hwf
    simp only [Node.find] at h
    cases hl : List.lookup a es with
    | none => simp [hl] at h
    | some c =>
      rw [hl] at h
      have hc : c.find p = some n := h
      simp only [Node.replace, Option.some.injEq] at h1
      subst h1
      rw [Node.wf_dir]
      exact modify_wf _ es hwf hl
        (fun c1 hc1 => Node.replace_wf new hnew p c n (wf_lookup es hwf hl) hc c1 hc1)

/-! ## What a walk leaves behind -/

theorem walk_file (path : Path) (s r : Bool) :
    walk path (.file s r) = ⟨if r then some (.file s r) else none, [.removing path], false⟩ := by
  rw [walk]

theorem walk_dir_unreadable (path : Path) (s : Bool) (es : Entries) :
    walk path (.dir s true es) = ⟨some (.dir s true es), [], true⟩ := by
  rw [walk]
  rfl

theorem walk_dir (path : Path) (s : Bool) (es : Entries) :
    walk path (.dir s false es) = ⟨some (.dir s false (walkEntries path es).fs),
      (walkEntries path es).out, (walkEntries path es).err⟩ := by
  rw [walk]
  rfl

theorem walkEntries_nil (path : Path) : walkEntries path [] = ⟨[], [], false⟩ := by
  rw [walkEntries]

theorem walkEntries_cons (path : Path) (name : String) (n : Node) (rest : Entries) :
    walkEntries path ((name, n) :: rest) =
      if n.statErr then ⟨(name, n) :: rest, [], true⟩
      else if (walk (path ++ [name]) n).err then
        ⟨keepEntry name (walk (path ++ [name]) n).fs ++ rest, (walk (path ++ [name]) n).out, true⟩
      else
        ⟨keepEntry name (walk (path ++ [name]) n).fs ++ (walkEntries path rest).fs,
          (walk (path ++ [name]) n).out ++ (walkEntries path rest).out,
          (walkEntries path rest).err⟩ := by
  rw [walkEntries]

/-- The entries left by the loop: all of them untouched, or what is left of the first one
followed by the others, untouched or walked. -/
theorem walkEntries_cons_fs (path : Path) (name : String) (n : Node) (rest : Entries) :
    (walkEntries path ((name, n) :: rest)).fs = (name, n) :: rest ∨
    (walkEntries path ((name, n) :: rest)).fs
      = keepEntry name (walk (path ++ [name]) n).fs ++ rest ∨
    (walkEntries path ((name, n) :: rest)).fs
      = keepEntry name (walk (path ++ [name]) n).fs ++ (walkEntries path rest).fs := by
  rw [walkEntries_cons]
  split_ifs
  · exact Or.inl rfl
  · exact Or.inr (Or.inl rfl)
  · exact Or.inr (Or.inr rfl)

/-- A walk creates no name. -/
theorem walkEntries_lookup_none (path : Path) (a : String) :
    ∀ es : Entries, List.lookup a es = none → List.lookup a (walkEntries path es).fs = none
  | [], _ => by rw [walkEntries_nil]; rfl
  | (name, n) :: rest, h => by
    have hne : a ≠ name := by
      rintro rfl
      rw [lookup_cons_self] at h
      cases h
    rw [lookup_cons_ne hne] at h
    rcases walkEntries_cons_fs path name n rest with e | e | e <;> rw [e]
    · rw [lookup_cons_ne hne]
      exact h
    · rw [lookup_keepEntry_ne hne]
      exact h
    · rw [lookup_keepEntry_ne hne]
      exact walkEntries_lookup_none path a rest h

mutual
/-- Directories, and files whose removal fails, survive the walk of a node. -/
theorem walk_kept_persist : ∀ (n : Node) (path : Path) (q : Path) (i : Info),
    n.stat q = some i → i.kept = true → statOpt (walk path n).fs q = some i
  | .file s r, path, q, i, hq, hi => by
    cases q with
    | nil =>
      rw [Node.stat_nil, Option.some.injEq] at hq
      subst hq
      have hr : r = true := hi
      subst hr
      rw [walk_file]
      rfl
    | cons b q => cases hq
  | .dir s true es, path, q, i, hq, _ => by
    rw [walk_dir_unreadable]
    exact hq
  | .dir s false es, path, q, i, hq, hi => by
    rw [walk_dir, statOpt_some]
    cases q with
    | nil =>
      rw [Node.stat_nil] at hq ⊢
      rw [← hq]
      rfl
    | cons b q =>
      rw [Node.stat_dir_cons] at hq ⊢
      exact walkEntries_kept_persist es path b q i hq hi
/-- Directories, and files whose removal fails, survive the walk of the entries of a
directory. -/
theorem walkEntries_kept_persist : ∀ (es : Entries) (path : Path) (a : String) (q : Path)
    (i : Info), statOpt (List.lookup a es) q = some i → i.kept = true →
    statOpt (List.lookup a (walkEntries path es).fs) q = some i
  | [], path, a, q, i, hq, _ => by cases hq
  | (name, n) :: rest, path, a, q, i, hq, hi => by
    by_cases ha : a = name
    · subst ha
      rw [lookup_cons_self, statOpt_some] at hq
      have ih := walk_kept_persist n (path ++ [a]) q i hq hi
      rcases walkEntries_cons_fs path a n rest with e | e | e <;> rw [e]
      · rw [lookup_cons_self]
        exact hq
      · cases hr : (walk (path ++ [a]) n).fs with
        | none => rw [hr] at ih; cases ih
        | some n1 =>
          rw [lookup_keepEntry_some]
          rw [hr] at ih
          exact ih
      · cases hr : (walk (path ++ [a]) n).fs with
        | none => rw [hr] at ih; cases ih
        | some n1 =>
          rw [lookup_keepEntry_some]
          rw [hr] at ih
          exact ih
    · rw [lookup_cons_ne ha] at hq
      rcases walkEntries_cons_fs path name n rest with e | e | e <;> rw [e]
      · rw [lookup_cons_ne ha]
        exact hq
      · rw [lookup_keepEntry_ne ha]
        exact hq
      · rw [lookup_keepEntry_ne ha]
        exact walkEntries_kept_persist rest path a q i hq hi
end

mutual
/-- With distinct names, whatever is found after the walk of a node was there before. -/
theorem walk_stat_old : ∀ (n : Node) (path : Path) (q : Path) (i : Info),
    n.wf = true → statOpt (walk path n).fs q = some i → n.stat q = some i
  | .file s r, path, q, i, _, hq => by
    rw [walk_file] at hq
    cases r with
    | false => cases hq
    | true => exact hq
  | .dir s true es, path, q, i, _, hq => by
    rw [walk_dir_unreadable] at hq
    exact hq
  | .dir s false es, path, q, i, hwf, hq => by
    rw [Node.wf_dir] at hwf
    rw [walk_dir, statOpt_some] at hq
    cases q with
    | nil =>
      rw [Node.stat_nil] at hq ⊢
      rw [← hq]
      rfl
    | cons b q =>
      rw [Node.stat_dir_cons] at hq ⊢
      exact walkEntries_stat_old es path b q i hwf hq
/-- With distinct names, whatever is found after the walk of the entries was there before. -/
theorem walkEntries_stat_old : ∀ (es : Entries) (path : Path) (a : String) (q : Path)
    (i : Info), wfEntries es = true →
    statOpt (List.lookup a (walkEntries path es).fs) q = some i →
    statOpt (List.lookup a es) q = some i
  | [], path, a, q, i, _, hq => by
    rw [walkEntries_nil] at hq
    cases hq
  | (name, n) :: rest, path, a, q, i, hwf, hq => by
    obtain ⟨h1, h2, h3⟩ := (wfEntries_cons name n rest).1 hwf
    by_cases ha : a = name
    · subst ha
      rw [lookup_cons_self, statOpt_some]
      rcases walkEntries_cons_fs path a n rest with e | e | e <;> rw [e] at hq
      · rw [lookup_cons_self] at hq
        exact hq
      · cases hr : (walk (path ++ [a]) n).fs with
        | none =>
          rw [hr, lookup_keepEntry_none, h1] at hq
          cases hq
        | some n1 =>
          rw [hr, lookup_keepEntry_some] at hq
          refine walk_stat_old n (path ++ [a]) q i h2 ?_
          rw [hr]
          exact hq
      · cases hr : (walk (path ++ [a]) n).fs with
        | none =>
          rw [hr, lookup_keepEntry_none, walkEntries_lookup_none path a rest h1] at hq
          cases hq
        | some n1 =>
          rw [hr, lookup_keepEntry_some] at hq
          refine walk_stat_old n (path ++ [a]) q i h2 ?_
          rw [hr]
          exact hq
    · rw [lookup_cons_ne ha]
      rcases walkEntries_cons_fs path name n rest with e | e | e <;> rw [e] at hq
      · rw [lookup_cons_ne ha] at hq
        exact hq
      · rw [lookup_keepEntry_ne ha] at hq
        exact hq
      · rw [lookup_keepEntry_ne ha] at hq
        exact walkEntries_stat_old rest path a q i h3 hq
end

mutual
/-- Names stay distinct in a walked node. -/
theorem walk_wf : ∀ (n : Node) (path : Path), n.wf = true →
    ∀ n1, (walk path n).fs = some n1 → n1.wf = true
  | .file s r, path, hwf, n1, h => by
    rw [walk_file] at h
    cases r with
    | false => cases h
    | true =>
      simp only [if_true, Option.some.injEq] at h
      subst h
      exact hwf
  | .dir s true es, path, hwf, n1, h => by
    rw [walk_dir_unreadable] at h
    simp only [Option.some.injEq] at h
    subst h
    exact hwf
  | .dir s false es, path, hwf, n1, h => by
    rw [walk_dir] at h
    simp only [Option.some.injEq] at h
    subst h
    rw [Node.wf_dir] at hwf ⊢
    exact walkEntries_wf es path hwf
/-- Names stay distinct in walked entries. -/
theorem walkEntries_wf : ∀ (es : Entries) (path : Path), wfEntries es = true →
    wfEntries (walkEntries path es).fs = true
  | [], path, _ => by rw [walkEntries_nil]; rfl
  | (name, n) :: rest, path, hwf => by
    obtain ⟨h1, h2, h3⟩ := (wfEntries_cons name n rest).1 hwf
    have ih := walkEntries_wf rest path h3
    have ihn := walk_wf n (path ++ [name]) h2
    rcases walkEntries_cons_fs path name n rest with e | e | e <;> rw [e]
    · exact hwf
    · cases hr : (walk (path ++ [name]) n).fs with
      | none => exact h3
      | some n1 => exact (wfEntries_cons name n1 rest).2 ⟨h1, ihn n1 hr, h3⟩
    · cases hr : (walk (path ++ [name]) n).fs with
      | none => exact ih
      | some n1 =>
        exact (wfEntries_cons name n1 _).2 ⟨walkEntries_lookup_none path name rest h1,
          ihn n1 hr, ih⟩
end

mutual
/-- With distinct names and no traversal fault below a node, its walk returns no error and
every file it leaves is one whose removal fails. -/
theorem walk_traversable : ∀ (n : Node) (path : Path), n.wf = true →
    (∀ q i, n.stat q = some i → i.statErr = false ∧ i.readErr = false) →
    (walk path n).err = false ∧
    ∀ q i, statOpt (walk path n).fs q = some i → i.isDir = true ∨ i.removeErr = true
  | .file s r, path, _, _ => by
    rw [walk_file]
    refine ⟨rfl, fun q i hq => ?_⟩
    cases r with
    | false => cases hq
    | true =>
      cases q with
      | nil =>
        simp only [if_true, statOpt_some, Node.stat_nil, Option.some.injEq] at hq
        subst hq
        exact Or.inr rfl
      | cons b q => cases hq
  | .dir s true es, path, _, hyp => by
    have := (hyp [] _ (Node.stat_nil _)).2
    cases this
  | .dir s false es, path, hwf, hyp => by
    rw [Node.wf_dir] at hwf
    have hes : ∀ a q i, statOpt (List.lookup a es) q = some i →
        i.statErr = false ∧ i.readErr = false := by
      intro a q i h
      refine hyp (a :: q) i ?_
      rw [Node.stat_dir_cons]
      exact h
    obtain ⟨e1, e2⟩ := walkEntries_traversable es path hwf hes
    rw [walk_dir]
    refine ⟨e1, fun q i hq => ?_⟩
    rw [statOpt_some] at hq
    cases q with
    | nil =>
      rw [Node.stat_nil, Option.some.injEq] at hq
      subst hq
      exact Or.inl rfl
    | cons b q =>
      rw [Node.stat_dir_cons] at hq
      exact e2 b q i hq
/-- With distinct names and no traversal fault below the entries, the loop returns no error
and every file it leaves is one whose removal fails. -/
theorem walkEntries_traversable : ∀ (es : Entries) (path : Path), wfEntries es = true →
    (∀ a q i, statOpt (List.lookup a es) q = some i → i.statErr = false ∧ i.readErr = false) →
    (walkEntries path es).err = false ∧
    ∀ a q i, statOpt (List.lookup a (walkEntries path es).fs) q = some i →
      i.isDir = true ∨ i.removeErr = true
  | [], path, _, _ => by
    rw [walkEntries_nil]
    exact ⟨rfl, fun a q i h => by cases h⟩
  | (name, n) :: rest, path, hwf, hyp => by
    obtain ⟨h1, h2, h3⟩ := (wfEntries_cons name n rest).1 hwf
    have hn : ∀ q i, n.stat q = some i → i.statErr = false ∧ i.readErr = false := by
      intro q i h
      refine hyp name q i ?_
      rw [lookup_cons_self]
      exact h
    have hrest : ∀ a q i, statOpt (List.lookup a rest) q = some i →
        i.statErr = false ∧ i.readErr = false := by
      intro a q i h
      by_cases ha : a = name
      · subst ha
        rw [h1] at h
        cases h
      · refine hyp a q i ?_
        rw [lookup_cons_ne ha]
        exact h
    have hstat : n.statErr = false := (hn [] _ (Node.stat_nil n)).1
    obtain ⟨n1, n2⟩ := walk_traversable n (path ++ [name]) h2 hn
    obtain ⟨r1, r2⟩ := walkEntries_traversable rest path h3 hrest
    rw [walkEntries_cons, hstat, n1]
    simp only [Bool.false_eq_true, if_false]
    refine ⟨r1, fun a q i hq => ?_⟩
    by_cases ha : a = name
    · subst ha
      cases hr : (walk (path ++ [a]) n).fs with
      | none =>
        rw [hr, lookup_keepEntry_none] at hq
        exact r2 a q i hq
      | some m =>
        rw [hr, lookup_keepEntry_some] at hq
        refine n2 q i ?_
        rw [hr]
        exact hq
    · rw [lookup_keepEntry_ne ha] at hq
      exact r2 a q i hq
end

mutual
/-- Below a traversable node no `lstat` and no listing fails. -/
theorem traversable_stat : ∀ (n : Node) (q : Path) (i : Info), n.traversable = true →
    n.stat q = some i → i.statErr = false ∧ i.readErr = false
  | .file s r, q, i, ht, hq => by
    cases q with
    | nil =>
      rw [Node.stat_nil, Option.some.injEq] at hq
      subst hq
      rw [Node.traversable] at ht
      simpa [Node.info, Node.statErr, Node.readErr] using ht
    | cons b q => cases hq
  | .dir s x es, q, i, ht, hq => by
    rw [Node.traversable] at ht
    simp only [Bool.and_eq_true, Bool.not_eq_true'] at ht
    cases q with
    | nil =>
      rw [Node.stat_nil, Option.some.injEq] at hq
      subst hq
      exact ⟨ht.1.1, ht.1.2⟩
    | cons b q =>
      rw [Node.stat_dir_cons] at hq
      exact traversableEntries_stat es b q i ht.2 hq
/-- Below traversable entries no `lstat` and no listing fails. -/
theorem traversableEntries_stat : ∀ (es : Entries) (a : String) (q : Path) (i : Info),
    traversableEntries es = true → statOpt (List.lookup a es) q = some i →
    i.statErr = false ∧ i.readErr = false
  | [], a, q, i, _, hq => by cases hq
  | (name, n) :: rest, a, q, i, ht, hq => by
    rw [traversableEntries] at ht
    simp only [Bool.and_eq_true] at ht
    by_cases ha : a = name
    · subst ha
      rw [lookup_cons_self] at hq
      exact traversable_stat n q i ht.1 hq
    · rw [lookup_cons_ne ha] at hq
      exact traversableEntries_stat rest a q i ht.2 hq
end

mutual
/-- Below a clean node nothing fails. -/
theorem clean_stat : ∀ (n : Node) (q : Path) (i : Info), n.clean = true →
    n.stat q = some i → i.statErr = false ∧ i.readErr = false ∧ i.removeErr = false
  | .file s r, q, i, ht, hq => by
    cases q with
    | nil =>
      rw [Node.stat_nil, Option.some.injEq] at hq
      subst hq
      rw [Node.clean] at ht
      simpa [Node.info, Node.statErr, Node.readErr, Node.removeErr] using ht
    | cons b q => cases hq
  | .dir s x es, q, i, ht, hq => by
    rw [Node.clean] at ht
    simp only [Bool.and_eq_true, Bool.not_eq_true'] at ht
    cases q with
    | nil =>
      rw [Node.stat_nil, Option.some.injEq] at hq
      subst hq
      exact ⟨ht.1.1, ht.1.2, rfl⟩
    | cons b q =>
      rw [Node.stat_dir_cons] at hq
      exact cleanEntries_stat es b q i ht.2 hq
/-- Below clean entries nothing fails. -/
theorem cleanEntries_stat : ∀ (es : Entries) (a : String) (q : Path) (i : Info),
    cleanEntries es = true → statOpt (List.lookup a es) q = some i →
    i.statErr = false ∧ i.readErr = false ∧ i.removeErr = false
  | [], a, q, i, _, hq => by cases hq
  | (name, n) :: rest, a, q, i, ht, hq => by
    rw [cleanEntries] at ht
    simp only [Bool.and_eq_true] at ht
    by_cases ha : a = name
    · subst ha
      rw [lookup_cons_self] at hq
      exact clean_stat n q i ht.1 hq
    · rw [lookup_cons_ne ha] at hq
      exact cleanEntries_stat rest a q i ht.2 hq
end

/-! ## The walk is a pass over the listing -/

theorem sweepErr_nil : sweepErr [] = false := rfl

theorem sweepErr_cons (p : Path) (i : Info) (l : List (Path × Info)) :
    sweepErr ((p, i) :: l) = (i.fault || sweepErr l) := rfl

theorem sweepErr_append (a b : List (Path × Info)) :
    sweepErr (a ++ b) = (sweepErr a || sweepErr b) := by
  unfold sweepErr
  rw [List.any_append]

theorem sweep_append : ∀ (a b : List (Path × Info)),
    sweep (a ++ b) = if sweepErr a then sweep a ++ b else sweep a ++ sweep b
  | [], b => rfl
  | (p, i) :: a, b => by
    have ih := sweep_append a b
    rw [List.cons_append, sweep, sweep, sweepErr_cons]
    cases hf : i.fault with
    | true => simp
    | false =>
      cases hk : i.kept with
      | true =>
        cases he : sweepErr a <;> simp [he] at ih ⊢ <;> exact ih
      | false =>
        cases he : sweepErr a <;> simp [he] at ih ⊢ <;> exact ih

theorem sweepOut_append : ∀ (a b : List (Path × Info)),
    sweepOut (a ++ b) = if sweepErr a then sweepOut a else sweepOut a ++ sweepOut b
  | [], b => rfl
  | (p, i) :: a, b => by
    have ih := sweepOut_append a b
    rw [List.cons_append, sweepOut, sweepOut, sweepErr_cons]
    cases hf : i.fault with
    | true => simp
    | false =>
      cases hk : i.isDir with
      | true =>
        cases he : sweepErr a <;> simp [he] at ih ⊢ <;> exact ih
      | false =>
        cases he : sweepErr a <;> simp [he] at ih ⊢ <;> exact ih

theorem Node.listing_file (path : Path) (s r : Bool) :
    (Node.file s r).listing path = [(path, (Node.file s r).info)] := by
  rw [Node.listing]

theorem Node.listing_dir (path : Path) (s r : Bool) (es : Entries) :
    (Node.dir s r es).listing path
      = (path, (Node.dir s r es).info) :: listingEntries path es := by
  rw [Node.listing]

theorem listingEntries_nil (path : Path) : listingEntries path [] = [] := by
  rw [listingEntries]

theorem listingEntries_cons (path : Path) (name : String) (n : Node) (rest : Entries) :
    listingEntries path ((name, n) :: rest)
      = n.listing (path ++ [name]) ++ listingEntries path rest := by
  rw [listingEntries]

theorem Node.listing_head (path : Path) (n : Node) :
    ∃ tail, n.listing path = (path, n.info) :: tail := by
  cases n with
  | file s r => exact ⟨[], Node.listing_file path s r⟩
  | dir s r es => exact ⟨_, Node.listing_dir path s r es⟩

theorem listingEntries_keepEntry (path : Path) (name : String) (x : Option Node)
    (l : Entries) :
    listingEntries path (keepEntry name x ++ l)
      = listingOpt (path ++ [name]) x ++ listingEntries path l := by
  cases x with
  | none => rfl
  | some n => exact listingEntries_cons path name n l

mutual
/-- The walk of a node on which `lstat` succeeds is the pass over its listing. -/
theorem walk_listing : ∀ (n : Node) (path : Path), n.statErr = false →
    listingOpt path (walk path n).fs = sweep (n.listing path) ∧
    (walk path n).err = sweepErr (n.listing path) ∧
    (walk path n).out = sweepOut (n.listing path)
  | .file s r, path, hs => by
    have hs : s = false := hs
    subst hs
    rw [walk_file, Node.listing_file]
    cases r <;> exact ⟨rfl, rfl, rfl⟩
  | .dir s true es, path, hs => by
    have hs : s = false := hs
    subst hs
    rw [walk_dir_unreadable, Node.listing_dir]
    exact ⟨rfl, rfl, rfl⟩
  | .dir s false es, path, hs => by
    have hs : s = false := hs
    subst hs
    obtain ⟨e1, e2, e3⟩ := walkEntries_listing es path
    rw [walk_dir, Node.listing_dir]
    refine ⟨?_, ?_, ?_⟩
    · show (Node.dir false false (walkEntries path es).fs).listing path = _
      rw [Node.listing_dir, e1]
      rfl
    · rw [e2]
      rfl
    · rw [e3]
      rfl
/-- The loop over the entries of a directory is the pass over their listing. -/
theorem walkEntries_listing : ∀ (es : Entries) (path : Path),
    listingEntries path (walkEntries path es).fs = sweep (listingEntries path es) ∧
    (walkEntries path es).err = sweepErr (listingEntries path es) ∧
    (walkEntries path es).out = sweepOut (listingEntries path es)
  | [], path => by
    rw [walkEntries_nil, listingEntries_nil]
    exact ⟨rfl, rfl, rfl⟩
  | (name, n) :: rest, path => by
    rw [walkEntries_cons, listingEntries_cons]
    cases hs : n.statErr with
    | true =>
      obtain ⟨tail, ht⟩ := Node.listing_head (path ++ [name]) n
      have hf : n.info.fault = true := by
        show (n.statErr || n.readErr) = true
        rw [hs]
        rfl
      simp only [if_true]
      rw [listingEntries_cons, ht, List.cons_append]
      refine ⟨?_, ?_, ?_⟩
      · rw [sweep, hf]
        rfl
      · rw [sweepErr_cons, hf]
        rfl
      · rw [sweepOut, hf]
        rfl
    | false =>
      obtain ⟨n1, n2, n3⟩ := walk_listing n (path ++ [name]) hs
      obtain ⟨r1, r2, r3⟩ := walkEntries_listing rest path
      simp only [Bool.false_eq_true, if_false]
      rw [sweep_append, sweepErr_append, sweepOut_append, ← n2]
      cases he : (walk (path ++ [name]) n).err with
      | true =>
        simp only [if_true, Bool.true_or]
        exact ⟨by rw [listingEntries_keepEntry, n1], trivial, n3⟩
      | false =>
        simp only [Bool.false_eq_true, if_false, Bool.false_or]
        exact ⟨by rw [listingEntries_keepEntry, n1, r1], r2, by rw [n3, r3]⟩
end

/-- Up to the first traversal failure a pass keeps the nodes that stay; from it on it keeps
everything. -/
theorem sweep_split : ∀ (a : List (Path × Info)) (p : Path) (i : Info)
    (b : List (Path × Info)), (∀ e ∈ a, e.2.fault = false) → i.fault = true →
    sweep (a ++ (p, i) :: b) = a.filter (fun e => e.2.kept) ++ (p, i) :: b ∧
    sweepErr (a ++ (p, i) :: b) = true ∧
    sweepOut (a ++ (p, i) :: b)
      = (a.filter fun e => !e.2.isDir).map fun e => Output.removing e.1
  | [], p, i, b, _, hi => by
    refine ⟨?_, ?_, ?_⟩
    · show sweep ((p, i) :: b) = _
      rw [sweep, hi]
      rfl
    · show sweepErr ((p, i) :: b) = true
      rw [sweepErr_cons, hi]
      rfl
    · show sweepOut ((p, i) :: b) = _
      rw [sweepOut, hi]
      rfl
  | (q, j) :: a, p, i, b, ha, hi => by
    have hj : j.fault = false := ha (q, j) (List.mem_cons_self _ _)
    obtain ⟨i1, i2, i3⟩ := sweep_split a p i b
      (fun e he => ha e (List.mem_cons_of_mem _ he)) hi
    rw [List.cons_append, sweep, sweepErr_cons, sweepOut, hj, i1, i2, i3]
    refine ⟨?_, rfl, ?_⟩
    · cases hk : j.kept <;> simp [List.filter_cons, hk]
    · cases hd : j.isDir <;> simp [List.filter_cons, hd]

/-- Without a traversal failure a pass keeps exactly the nodes that stay. -/
theorem sweep_clear : ∀ (a : List (Path × Info)), (∀ e ∈ a, e.2.fault = false) →
    sweep a = a.filter (fun e => e.2.kept) ∧
    sweepErr a = false ∧
    sweepOut a = (a.filter fun e => !e.2.isDir).map fun e => Output.removing e.1
  | [], _ => ⟨rfl, rfl, rfl⟩
  | (q, j) :: a, ha => by
    have hj : j.fault = false := ha (q, j) (List.mem_cons_self _ _)
    obtain ⟨i1, i2, i3⟩ := sweep_clear a (fun e he => ha e (List.mem_cons_of_mem _ he))
    rw [sweep, sweepErr_cons, sweepOut, hj, i1, i2, i3]
    refine ⟨?_, rfl, ?_⟩
    · cases hk : j.kept <;> simp [List.filter_cons, hk]
    · cases hd : j.isDir <;> simp [List.filter_cons, hd]

/-! ## What `filepath.Walk` leaves behind -/

theorem Entries.statUnder_nil (fs : Entries) (r : Path) : Entries.statUnder fs [] r = none :=
  rfl

theorem Entries.statUnder_cons (fs : Entries) (a : String) (p r : Path) :
    Entries.statUnder fs (a :: p) r = Entries.stat fs (a :: p ++ r) := by
  unfold Entries.statUnder
  rw [Entries.find_eq_dir]
  show _ = (Node.dir false false fs).stat (a :: p ++ r)
  cases h : (Node.dir false false fs).find (a :: p) with
  | none =>
    unfold Node.stat
    rw [Node.find_append, h]
    rfl
  | some n =>
    rw [Node.stat_append (a :: p) _ n r h]
    rfl

/-- The file system after `Walk`: unchanged when the root does not resolve or `lstat` fails
on it, otherwise the root is replaced by what its walk leaves. -/
theorem Walk_fs_cases (p : Path) (fs : Entries) :
    (Entries.find fs p = none ∧ (Walk p fs).fs = fs) ∨
    (∃ n, Entries.find fs p = some n ∧ n.statErr = true ∧ (Walk p fs).fs = fs) ∨
    (∃ a p1 n, p = a :: p1 ∧ (Node.dir false false fs).find (a :: p1) = some n ∧
      n.statErr = false ∧
      some (Node.dir false false (Walk p fs).fs)
        = Node.replace (walk p n).fs (a :: p1) (Node.dir false false fs)) := by
  unfold Walk
  cases h : Entries.find fs p with
  | none => exact Or.inl ⟨rfl, rfl⟩
  | some n =>
    right
    cases hs : n.statErr with
    | true =>
      left
      exact ⟨n, rfl, hs, by simp [hs]⟩
    | false =>
      right
      cases p with
      | nil => cases h
      | cons a p1 => exact ⟨a, p1, n, rfl, h, hs, by simp [hs, Entries.replace, Node.replace]⟩

/-- Directories, and files whose removal fails, survive `Walk`. -/
theorem Walk_kept_persist (p : Path) (fs : Entries) (q : Path) (i : Info)
    (hq : Entries.stat fs q = some i) (hi : i.kept = true) :
    Entries.stat (Walk p fs).fs q = some i := by
  rcases Walk_fs_cases p fs with ⟨_, e⟩ | ⟨n, _, _, e⟩ | ⟨a, p1, n, hp, hf, _, e⟩
  · rw [e]
    exact hq
  · rw [e]
    exact hq
  · cases q with
    | nil => cases hq
    | cons b q =>
      have := Node.replace_kept_persist (walk p n).fs (a :: p1) _ n hf
        (fun r i => walk_kept_persist n p r i) (b :: q) i hq hi
      rw [← e] at this
      exact this

/-- With distinct names, whatever is found after `Walk` was there before. -/
theorem Walk_stat_old (p : Path) (fs : Entries) (hwf : wfEntries fs = true) (q : Path)
    (i : Info) (hq : Entries.stat (Walk p fs).fs q = some i) : Entries.stat fs q = some i := by
  rcases Walk_fs_cases p fs with ⟨_, e⟩ | ⟨n, _, _, e⟩ | ⟨a, p1, n, hp, hf, _, e⟩
  · rw [e] at hq
    exact hq
  · rw [e] at hq
    exact hq
  · cases q with
    | nil => cases hq
    | cons b q =>
      have hD : (Node.dir false false fs).wf = true := by
        rw [Node.wf_dir]
        exact hwf
      have hn : n.wf = true := Node.wf_find (a :: p1) _ n hD hf
      refine Node.replace_stat_old (walk p n).fs (a :: p1) _ n hD hf
        (fun r i h => walk_stat_old n p r i hn h) (b :: q) i ?_
      rw [← e]
      exact hq

/-- Names stay distinct after `Walk`. -/
theorem Walk_wf (p : Path) (fs : Entries) (hwf : wfEntries fs = true) :
    wfEntries (Walk p fs).fs = true := by
  rcases Walk_fs_cases p fs with ⟨_, e⟩ | ⟨n, _, _, e⟩ | ⟨a, p1, n, hp, hf, _, e⟩
  · rw [e]
    exact hwf
  · rw [e]
    exact hwf
  · have hD : (Node.dir false false fs).wf = true := by
      rw [Node.wf_dir]
      exact hwf
    have hn : n.wf = true := Node.wf_find (a :: p1) _ n hD hf
    have := Node.replace_wf (walk p n).fs (fun n1 h1 => walk_wf n p hn n1 h1) (a :: p1) _ n hD hf
      _ e.symm
    rw [Node.wf_dir] at this
    exact this

/-- With distinct names and no traversal fault under the root, `Walk` returns no error and
every file left under the root is one whose removal fails. -/
theorem Walk_traversable (p : Path) (fs : Entries) (hwf : wfEntries fs = true)
    (hyp : ∀ r i, Entries.statUnder fs p r = some i → i.statErr = false ∧ i.readErr = false) :
    ∀ r i, Entries.statUnder (Walk p fs).fs p r = some i →
      i.isDir = true ∨ i.removeErr = true := by
  intro r i hr
  rcases Walk_fs_cases p fs with ⟨hnone, e⟩ | ⟨n, hsome, hs, e⟩ | ⟨a, p1, n, hp, hf, _, e⟩
  · rw [e] at hr
    unfold Entries.statUnder at hr
    rw [hnone] at hr
    cases hr
  · have := (hyp [] n.info (by
      unfold Entries.statUnder
      rw [hsome, statOpt_some, Node.stat_nil])).1
    rw [show n.info.statErr = n.statErr from rfl, hs] at this
    cases this
  · subst hp
    have hD : (Node.dir false false fs).wf = true := by
      rw [Node.wf_dir]
      exact hwf
    have hn : n.wf = true := Node.wf_find (a :: p1) _ n hD hf
    have hflat : ∀ q i, n.stat q = some i → i.statErr = false ∧ i.readErr = false := by
      intro q i h
      refine hyp q i ?_
      unfold Entries.statUnder
      rw [Entries.find_eq_dir, hf]
      exact h
    have hw := (walk_traversable n (a :: p1) hn hflat).2
    have hu := Node.replace_stat_under (walk (a :: p1) n).fs r (a :: p1) _ n hD hf
    rw [← e] at hu
    rw [Entries.statUnder_cons] at hr
    refine hw r i ?_
    rw [← hu]
    exact hr

/-- With distinct names, the replaced path resolves to the new node. -/
theorem Node.replace_find_self (new : Option Node) :
    ∀ (p : Path) (m n : Node), m.wf = true → m.find p = some n →
      ((Node.replace new p m).bind fun m1 => m1.find p) = new
  | [], m, n, _, _ => by
    cases m <;> cases new <;> simp [Node.replace, Node.find_nil]
  | a :: p, .file s x, n, _, h => by simp [Node.find] at h
  | a :: p, .dir s x es, n, hwf, h => by
    rw [Node.wf_dir] at hwf
    simp only [Node.find] at h
    cases hl : List.lookup a es with
    | none => simp [hl] at h
    | some c =>
      rw [hl] at h
      have hc : c.find p = some n := h
      have ih := Node.replace_find_self new p c n (wf_lookup es hwf hl) hc
      simp only [Node.replace, Option.some_bind, Node.find]
      cases hr : Node.replace new p c with
      | none =>
        rw [modify_lookup_none _ es hwf hl hr]
        rw [hr] at ih
        exact ih
      | some c1 =>
        rw [modify_lookup_some _ es hl hr]
        rw [hr] at ih
        exact ih

/-- With distinct names, a replacement changes nothing at the paths that do not pass
through the replaced one. -/
theorem Node.replace_stat_outside (new : Option Node) :
    ∀ (p : Path) (m n : Node) (q : Path), m.wf = true → m.find p = some n → ¬ p <+: q →
      statOpt (Node.replace new p m) q = m.stat q
  | [], m, n, q, _, _, hq => absurd (List.nil_prefix) hq
  | a :: p, .file s x, n, _, _, h, _ => by simp [Node.find] at h
  | a :: p, .dir s x es, n, q, hwf, h, hq => by
    rw [Node.wf_dir] at hwf
    simp only [Node.find] at h
    cases hl : List.lookup a es with
    | none => simp [hl] at h
    | some c =>
      rw [hl] at h
      have hc : c.find p = some n := h
      simp only [Node.replace, statOpt_some]
      cases q with
      | nil =>
        rw [Node.stat_nil, Node.stat_nil]
        rfl
      | cons b q =>
        rw [Node.stat_dir_cons, Node.stat_dir_cons]
        by_cases hb : b = a
        · subst hb
          have hq1 : ¬ p <+: q := fun hp => hq ((List.cons_prefix_cons).2 ⟨rfl, hp⟩)
          have ih := Node.replace_stat_outside new p c n q (wf_lookup es hwf hl) hc hq1
          rw [hl, statOpt_some]
          cases hr : Node.replace new p c with
          | none =>
            rw [modify_lookup_none _ es hwf hl hr]
            rw [hr] at ih
            exact ih
          | some c1 =>
            rw [modify_lookup_some _ es hl hr]
            rw [hr] at ih
            exact ih
        · rw [modify_lookup_ne hb]

/-- With distinct names, `Walk` changes nothing at the paths that do not pass through its
root. -/
theorem Walk_stat_outside (p : Path) (fs : Entries) (hwf : wfEntries fs = true) (q : Path)
    (hq : ¬ p <+: q) : Entries.stat (Walk p fs).fs q = Entries.stat fs q := by
  rcases Walk_fs_cases p fs with ⟨_, e⟩ | ⟨n, _, _, e⟩ | ⟨a, p1, n, hp, hf, _, e⟩
  · rw [e]
  · rw [e]
  · subst hp
    cases q with
    | nil => rfl
    | cons b q =>
      have hD : (Node.dir false false fs).wf = true := by
        rw [Node.wf_dir]
        exact hwf
      have := Node.replace_stat_outside (walk (a :: p1) n).fs (a :: p1) _ n (b :: q) hD hf hq
      rw [← e] at this
      exact this

/-- With distinct names, `Walk` on a root that resolves is the pass over the listing of the
root: what is found at the root afterwards, the error returned and the lines printed. -/
theorem Walk_listing (p : Path) (fs : Entries) (n : Node) (hwf : wfEntries fs = true)
    (hfind : Entries.find fs p = some n) :
    listingOpt p (Entries.find (Walk p fs).fs p) = sweep (n.listing p) ∧
    (Walk p fs).err = sweepErr (n.listing p) ∧
    (Walk p fs).out = sweepOut (n.listing p) := by
  cases hs : n.statErr with
  | true =>
    obtain ⟨tail, ht⟩ := Node.listing_head p n
    have hf : n.info.fault = true := by
      show (n.statErr || n.readErr) = true
      rw [hs]
      rfl
    have hW : Walk p fs = ⟨fs, [], true⟩ := by
      unfold Walk
      rw [hfind]
      simp [hs]
    rw [hW]
    show listingOpt p (Entries.find fs p) = _ ∧ true = _ ∧ [] = _
    rw [hfind, ht, sweep, sweepErr_cons, sweepOut, hf]
    refine ⟨?_, rfl, rfl⟩
    show n.listing p = _
    rw [ht]
    rfl
  | false =>
    obtain ⟨w1, w2, w3⟩ := walk_listing n p hs
    cases p with
    | nil => cases hfind
    | cons a p1 =>
      have hD : (Node.dir false false fs).wf = true := by
        rw [Node.wf_dir]
        exact hwf
      have hW : Walk (a :: p1) fs = ⟨Entries.replace fs (walk (a :: p1) n).fs (a :: p1),
          (walk (a :: p1) n).out, (walk (a :: p1) n).err⟩ := by
        unfold Walk
        rw [hfind]
        simp [hs]
      have hself := Node.replace_find_self (walk (a :: p1) n).fs (a :: p1) _ n hD hfind
      have hfs : Entries.find (Entries.replace fs (walk (a :: p1) n).fs (a :: p1)) (a :: p1)
          = (walk (a :: p1) n).fs := hself
      rw [hW]
      exact ⟨by rw [hfs]; exact w1, w2, w3⟩

theorem Walk_statUnder_old (p : Path) (fs : Entries) (hwf : wfEntries fs = true)
    (root r : Path) (i : Info)
    (h : Entries.statUnder (Walk p fs).fs root r = some i) :
    Entries.statUnder fs root r = some i := by
  cases root with
  | nil => cases h
  | cons a root =>
    rw [Entries.statUnder_cons] at h ⊢
    exact Walk_stat_old p fs hwf _ i h

theorem Walk_statUnder_kept_persist (p : Path) (fs : Entries) (root r : Path) (i : Info)
    (h : Entries.statUnder fs root r = some i) (hi : i.kept = true) :
    Entries.statUnder (Walk p fs).fs root r = some i := by
  cases root with
  | nil => cases h
  | cons a root =>
    rw [Entries.statUnder_cons] at h ⊢
    exact Walk_kept_persist p fs _ i h hi

theorem Info.kept_of_isDir (i : Info) (h : i.isDir = true) : i.kept = true := by
  unfold Info.kept
  rw [h]
  rfl

theorem Walk_statUnder_dir_persist (p : Path) (fs : Entries) (root r : Path) (i : Info)
    (h : Entries.statUnder fs root r = some i) (hi : i.isDir = true) :
    Entries.statUnder (Walk p fs).fs root r = some i :=
  Walk_statUnder_kept_persist p fs root r i h (i.kept_of_isDir hi)

theorem statUnder_clean (fs : Entries) (root : Path)
    (h : (Entries.find fs root).all Node.clean = true) (r : Path) (i : Info)
    (hr : Entries.statUnder fs root r = some i) :
    i.statErr = false ∧ i.readErr = false ∧ i.removeErr = false := by
  unfold Entries.statUnder at hr
  cases hf : Entries.find fs root with
  | none => rw [hf] at hr; cases hr
  | some n =>
    rw [hf] at h hr
    exact clean_stat n r i h hr

/-- After two walks, of `p1` and then of `p2`, with distinct names and no traversal fault
under either root, every file left under either root is one whose removal fails. -/
theorem two_walks_traversable (p1 p2 : Path) (fs : Entries) (hwf : wfEntries fs = true)
    (h1 : ∀ r i, Entries.statUnder fs p1 r = some i → i.statErr = false ∧ i.readErr = false)
    (h2 : ∀ r i, Entries.statUnder fs p2 r = some i → i.statErr = false ∧ i.readErr = false) :
    (∀ r i, Entries.statUnder (Walk p2 (Walk p1 fs).fs).fs p1 r = some i →
      i.isDir = true ∨ i.removeErr = true) ∧
    (∀ r i, Entries.statUnder (Walk p2 (Walk p1 fs).fs).fs p2 r = some i →
      i.isDir = true ∨ i.removeErr = true) := by
  have hwf1 := Walk_wf p1 fs hwf
  constructor
  · intro r i h
    exact Walk_traversable p1 fs hwf h1 r i (Walk_statUnder_old p2 _ hwf1 p1 r i h)
  · exact Walk_traversable p2 _ hwf1
      (fun r i h => h2 r i (Walk_statUnder_old p1 fs hwf p2 r i h))

theorem watcherWake_fired (config : Config) (now : Int) (w : World) (h : w.endTime < now) :
    (watcherWake config now w).2 = true ∧
    (watcherWake config now w).1.isRunning = false ∧
    (watcherWake config now w).1.fs
      = (Walk config.GitRepoPath (Walk config.LocalCodePath w.fs).fs).fs := by
  have hA : Time.After now w.endTime = true := by
    simp [Time.After, h]
  simp [watcherWake, hA, deleteFilesInDir]

/-! ## The watcher after expiry -/

/-- C4: a wake-up of the watcher on a running world after `endTime`, names being distinct
in every directory and no `lstat`, listing or removal failing under the two configured
roots, leaves the loop with `isRunning = false`; afterwards nothing found under either root
is a file, and every directory found under either root before is still found there. -/
theorem C4_watcher_after_expiry (config : Config) (now : Int) (w : World)
    (_hrun : w.isRunning = true) (hnow : w.endTime < now)
    (hwf : wfEntries w.fs = true)
    (hL : (Entries.find w.fs config.LocalCodePath).all Node.clean = true)
    (hG : (Entries.find w.fs config.GitRepoPath).all Node.clean = true) :
    (watcherWake config now w).2 = true ∧
    (watcherWake config now w).1.isRunning = false ∧
    (∀ r i, Entries.statUnder (watcherWake config now w).1.fs config.LocalCodePath r = some i →
      i.isDir = true) ∧
    (∀ r i, Entries.statUnder (watcherWake config now w).1.fs config.GitRepoPath r = some i →
      i.isDir = true) ∧
    (∀ r i, Entries.statUnder w.fs config.LocalCodePath r = some i → i.isDir = true →
      Entries.statUnder (watcherWake config now w).1.fs config.LocalCodePath r = some i) ∧
    (∀ r i, Entries.statUnder w.fs config.GitRepoPath r = some i → i.isDir = true →
      Entries.statUnder (watcherWake config now w).1.fs config.GitRepoPath r = some i) := by
  obtain ⟨f1, f2, f3⟩ := watcherWake_fired config now w hnow
  have hwf1 := Walk_wf config.LocalCodePath w.fs hwf
  have cL := statUnder_clean w.fs config.LocalCodePath hL
  have cG := statUnder_clean w.fs config.GitRepoPath hG
  obtain ⟨t1, t2⟩ := two_walks_traversable config.LocalCodePath config.GitRepoPath w.fs hwf
    (fun r i h => ⟨(cL r i h).1, (cL r i h).2.1⟩) (fun r i h => ⟨(cG r i h).1, (cG r i h).2.1⟩)
  have old : ∀ root r i,
      Entries.statUnder (Walk config.GitRepoPath (Walk config.LocalCodePath w.fs).fs).fs root r
        = some i → Entries.statUnder w.fs root r = some i := fun root r i h =>
    Walk_statUnder_old _ _ hwf root r i (Walk_statUnder_old _ _ hwf1 root r i h)
  rw [f3]
  refine ⟨f1, f2, ?_, ?_, ?_, ?_⟩
  · intro r i h
    rcases t1 r i h with hd | hr
    · exact hd
    · rw [(cL r i (old _ r i h)).2.2] at hr
      cases hr
  · intro r i h
    rcases t2 r i h with hd | hr
    · exact hd
    · rw [(cG r i (old _ r i h)).2.2] at hr
      cases hr
  · intro r i h hi
    exact Walk_statUnder_dir_persist _ _ _ r i (Walk_statUnder_dir_persist _ _ _ r i h hi) hi
  · intro r i h hi
    exact Walk_statUnder_dir_persist _ _ _ r i (Walk_statUnder_dir_persist _ _ _ r i h hi) hi

/-- C4, at a world with a code tree and a repository tree, armed until 5 s, woken at 6 s. -/
theorem C4_watcher_after_expiry_witness :
    (World.mk 5000000000 true [Config.mk ["repo"] ["code"] 5]
      [("code", Node.dir false false
          [("main.go", Node.file false false),
           ("pkg", Node.dir false false [("x.go", Node.file false false)])]),
       ("repo", Node.dir false false
          [(".git", Node.dir false false [("HEAD", Node.file false false)])])] []).isRunning
      = true ∧
    (∀ r i, Entries.statUnder (watcherWake (Config.mk ["repo"] ["code"] 5) 6000000000
      (World.mk 5000000000 true [Config.mk ["repo"] ["code"] 5]
        [("code", Node.dir false false
            [("main.go", Node.file false false),
             ("pkg", Node.dir false false [("x.go", Node.file false false)])]),
         ("repo", Node.dir false false
            [(".git", Node.dir false false [("HEAD", Node.file false false)])])] [])).1.fs
      ["code"] r = some i → i.isDir = true) ∧
    (watcherWake (Config.mk ["repo"] ["code"] 5) 6000000000
      (World.mk 5000000000 true [Config.mk ["repo"] ["code"] 5]
        [("code", Node.dir false false
            [("main.go", Node.file false false),
             ("pkg", Node.dir false false [("x.go", Node.file false false)])]),
         ("repo", Node.dir false false
            [(".git", Node.dir false false [("HEAD", Node.file false false)])])] [])).1.fs
      = [("code", Node.dir false false [("pkg", Node.dir false false [])]),
         ("repo", Node.dir false false [(".git", Node.dir false false [])])] :=
  ⟨rfl,
    (C4_watcher_after_expiry (Config.mk ["repo"] ["code"] 5) 6000000000
      (World.mk 5000000000 true [Config.mk ["repo"] ["code"] 5]
        [("code", Node.dir false false
            [("main.go", Node.file false false),
             ("pkg", Node.dir false false [("x.go", Node.file false false)])]),
         ("repo", Node.dir false false
            [(".git", Node.dir false false [("HEAD", Node.file false false)])])] [])
      rfl (by decide) (by decide) (by decide) (by decide)).2.2.1,
    rfl⟩

/-! ## Failures during deletion -/

theorem deleteFilesInDir_fs (dirPath : Path) (w : World) :
    (deleteFilesInDir dirPath w).fs = (Walk dirPath w.fs).fs := rfl

theorem deleteFilesInDir_out (dirPath : Path) (w : World) :
    (deleteFilesInDir dirPath w).out = w.out ++ [Output.deleting dirPath]
      ++ (Walk dirPath w.fs).out
      ++ [if (Walk dirPath w.fs).err then Output.errorCleaning else Output.cleaned] := rfl

/-- C7 (as stated) fails: below the root `code`, the directory `a` cannot be read and the
file `b` comes after it. `deleteFilesInDir` prints the error and stops: `b` is still there
and the file system is unchanged. -/
theorem C7_counterexample :
    Entries.stat
      (deleteFilesInDir ["code"] (World.init
        [("code", Node.dir false false
          [("a", Node.dir false true []), ("b", Node.file false false)])])).fs
      ["code", "b"] = some ⟨false, false, false, false⟩ ∧
    (deleteFilesInDir ["code"] (World.init
        [("code", Node.dir false false
          [("a", Node.dir false true []), ("b", Node.file false false)])])).out
      = [Output.deleting ["code"], Output.errorCleaning] := by
  decide

/-- C7 (amended): `deleteFilesInDir` stops at the first traversal failure. Let the root
resolve to a node whose listing, in walk order, is `a`, then the node `(p, i)`, then `b`,
where no `lstat` and no listing fails in `a` and one of them fails at `(p, i)`; names are
distinct in every directory. Afterwards the listing found at the root is: the directories
of `a` and the files of `a` whose removal fails, then `(p, i)` and all of `b` as they were;
nothing changes at paths that do not pass through the root; the lines printed are the
announcement, one line for each file of `a`, and `Error cleaning directory`; the countdown
state is untouched. A root that does not resolve gives no change and the error line. -/
theorem C7_traversal_failure (dirPath : Path) (w : World) :
    (Entries.find w.fs dirPath = none →
      (deleteFilesInDir dirPath w).fs = w.fs ∧
      (deleteFilesInDir dirPath w).out
        = w.out ++ [Output.deleting dirPath, Output.errorCleaning]) ∧
    (∀ (n : Node) (a : List (Path × Info)) (p : Path) (i : Info) (b : List (Path × Info)),
      wfEntries w.fs = true → Entries.find w.fs dirPath = some n →
      n.listing dirPath = a ++ (p, i) :: b →
      (∀ e ∈ a, e.2.statErr = false ∧ e.2.readErr = false) →
      (i.statErr = true ∨ i.readErr = true) →
      listingOpt dirPath (Entries.find (deleteFilesInDir dirPath w).fs dirPath)
        = a.filter (fun e => e.2.isDir || e.2.removeErr) ++ (p, i) :: b ∧
      (∀ q, ¬ dirPath <+: q →
        Entries.stat (deleteFilesInDir dirPath w).fs q = Entries.stat w.fs q) ∧
      (deleteFilesInDir dirPath w).out
        = w.out ++ [Output.deleting dirPath]
          ++ (a.filter fun e => !e.2.isDir).map (fun e => Output.removing e.1)
          ++ [Output.errorCleaning]) ∧
    ((deleteFilesInDir dirPath w).isRunning = w.isRunning ∧
      (deleteFilesInDir dirPath w).endTime = w.endTime ∧
      (deleteFilesInDir dirPath w).watchers = w.watchers) := by
  refine ⟨?_, ?_, rfl, rfl, rfl⟩
  · intro h
    have hW : Walk dirPath w.fs = ⟨w.fs, [], true⟩ := by
      unfold Walk
      rw [h]
    rw [deleteFilesInDir_fs, deleteFilesInDir_out, hW]
    refine ⟨rfl, ?_⟩
    simp
  · intro n a p i b hwf hfind hl ha hi
    have ha1 : ∀ e ∈ a, e.2.fault = false := by
      intro e he
      obtain ⟨h1, h2⟩ := ha e he
      unfold Info.fault
      rw [h1, h2]
      rfl
    have hi1 : i.fault = true := by
      unfold Info.fault
      rcases hi with h | h <;> simp [h]
    obtain ⟨s1, s2, s3⟩ := sweep_split a p i b ha1 hi1
    obtain ⟨w1, w2, w3⟩ := Walk_listing dirPath w.fs n hwf hfind
    rw [hl] at w1 w2 w3
    rw [s1] at w1
    rw [s2] at w2
    rw [s3] at w3
    refine ⟨?_, ?_, ?_⟩
    · rw [deleteFilesInDir_fs]
      exact w1
    · intro q hq
      rw [deleteFilesInDir_fs]
      exact Walk_stat_outside dirPath w.fs hwf q hq
    · rw [deleteFilesInDir_out, w2, w3]
      rfl

/-- C7 (amended), at the root `code` holding the file `a.txt`, the directory `d` with an
unreadable directory `u` and a file `z.txt`, and the file `e.txt`: `a.txt` is removed, the
walk ends at `u`, and `u`, `z.txt` and `e.txt` stay. -/
theorem C7_traversal_failure_witness :
    listingOpt ["code"] (Entries.find (deleteFilesInDir ["code"] (World.init
      [("code", Node.dir false false
        [("a.txt", Node.file false false),
         ("d", Node.dir false false
            [("u", Node.dir false true []), ("z.txt", Node.file false false)]),
         ("e.txt", Node.file false false)])])).fs ["code"])
      = [(["code"], ⟨true, false, false, false⟩),
         (["code", "d"], ⟨true, false, false, false⟩),
         (["code", "d", "u"], ⟨true, false, true, false⟩),
         (["code", "d", "z.txt"], ⟨false, false, false, false⟩),
         (["code", "e.txt"], ⟨false, false, false, false⟩)] ∧
    (deleteFilesInDir ["code"] (World.init
      [("code", Node.dir false false
        [("a.txt", Node.file false false),
         ("d", Node.dir false false
            [("u", Node.dir false true []), ("z.txt", Node.file false false)]),
         ("e.txt", Node.file false false)])])).out
      = [Output.deleting ["code"], Output.removing ["code", "a.txt"], Output.errorCleaning] :=
  have h := ((C7_traversal_failure ["code"] (World.init
      [("code", Node.dir false false
        [("a.txt", Node.file false false),
         ("d", Node.dir false false
            [("u", Node.dir false true []), ("z.txt", Node.file false false)]),
         ("e.txt", Node.file false false)])])).2.1
    (Node.dir false false
        [("a.txt", Node.file false false),
         ("d", Node.dir false false
            [("u", Node.dir false true []), ("z.txt", Node.file false false)]),
         ("e.txt", Node.file false false)])
    [(["code"], ⟨true, false, false, false⟩),
     (["code", "a.txt"], ⟨false, false, false, false⟩),
     (["code", "d"], ⟨true, false, false, false⟩)]
    ["code", "d", "u"] ⟨true, false, true, false⟩
    [(["code", "d", "z.txt"], ⟨false, false, false, false⟩),
     (["code", "e.txt"], ⟨false, false, false, false⟩)]
    (by decide) rfl (by decide) (by decide) (by decide))
  ⟨h.1, h.2.2⟩

end CliffCoder
